import Mathlib

/- Shallow embedding of libfprint's aeslib.c: the batched register writer
   (aes_write_regv / continue_write_regv / do_write_regv /
   write_regv_trf_complete) and the sample image assembler
   (aes_assemble_image), with a verification of the stated properties. -/

namespace Aeslib

/-- MAX_REGWRITES_PER_REQUEST, aeslib.c line 30. -/
def MAX_REGWRITES_PER_REQUEST : Nat := 16

/-- Linux errno value EIO = 5; the source reports failures as -EIO. -/
def eio : Int := 5

/-- Linux errno value EPROTO = 71; the source reports length mismatches as -EPROTO. -/
def eproto : Int := 71

/-- One entry of struct aes_regwrite: a (register, value) byte pair.
    A register identifier of 0 is the barrier sentinel. -/
structure RegWrite where
  reg : Nat
  value : Nat

/-- Default used for (unreachable) out-of-bounds array reads. -/
def rw0 : RegWrite := ⟨0, 0⟩

/-- Encoding of one register write on the wire: the two bytes (reg, value),
    as written by do_write_regv lines 85-86. -/
def encWrite (rw : RegWrite) : List Nat := [rw.reg, rw.value]

/-- Barrier test: register id 0. -/
def isBarrier (x : RegWrite) : Bool := x.reg == 0

/-- Non-barrier test: register id nonzero. -/
def nonBarrier (x : RegWrite) : Bool := x.reg != 0

/-- The skip loop of continue_write_regv (lines 111-120): starting at
    offset, advance past consecutive barrier (reg = 0) entries, stopping at
    the first non-barrier entry or at num_regs.  The loop runs at most
    regs.length - offset times, which is used as the structural fuel. -/
def skipZerosGo (regs : List RegWrite) : Nat → Nat → Nat
  | 0, offset => offset
  | fuel + 1, offset =>
    if (regs.getD offset rw0).reg = 0 then skipZerosGo regs fuel (offset + 1) else offset

/-- Final cursor value of the skip loop of continue_write_regv. -/
def skipZeros (regs : List RegWrite) (offset : Nat) : Nat :=
  skipZerosGo regs (regs.length - offset) offset

/-- The barrier scan of continue_write_regv (lines 129-133): find the first
    index in [i, ub] whose register id is 0.  The loop runs exactly
    ub + 1 - i times, which is used as the structural fuel. -/
def findZeroGo (regs : List RegWrite) : Nat → Nat → Option Nat
  | 0, _ => none
  | fuel + 1, i =>
    if (regs.getD i rw0).reg = 0 then some i else findZeroGo regs fuel (i + 1)

/-- First barrier index in the inclusive window [i, ub], if any. -/
def findZero (regs : List RegWrite) (i ub : Nat) : Option Nat :=
  findZeroGo regs (ub + 1 - i) i

/-- The packing loop of do_write_regv (lines 83-87): the payload bytes
    reg, value for each of num entries starting at index i. -/
def packLoop (regs : List RegWrite) : Nat → Nat → List Nat
  | _, 0 => []
  | i, num + 1 =>
    (regs.getD i rw0).reg :: (regs.getD i rw0).value :: packLoop regs (i + 1) num

/-- The upper_bound computation of continue_write_regv (lines 123-133):
    cap the batch at limit = MIN(regs_remaining, MAX_REGWRITES_PER_REQUEST)
    writes, giving the provisional bound off + limit - 1, then shrink it to
    end just before the first barrier found in the window. -/
def batchUpperBound (regs : List RegWrite) (off : Nat) : Nat :=
  match findZero regs off
      (off + min (regs.length - off) MAX_REGWRITES_PER_REQUEST - 1) with
  | some i => i - 1
  | none => off + min (regs.length - off) MAX_REGWRITES_PER_REQUEST - 1

/-- Environment model for one submitted transfer: either the submission
    itself fails (libusb_async_bulk_transfer returns NULL, line 91), or the
    transfer completes and the completion handler observes a status flag and
    an actual transferred length, both possibly depending on the requested
    length. -/
inductive TrfOutcome where
  | submitFail : TrfOutcome
  | complete (f : Nat → Bool × Nat) : TrfOutcome

/-- A fully successful transfer: completes with status ok and actual
    length equal to the requested length. -/
def success : TrfOutcome := .complete fun L => (true, L)

/-- A transfer that completes with a transport failure
    (status != FP_URB_COMPLETED). -/
def transportFail : TrfOutcome := .complete fun _ => (false, 0)

/-- A transfer that completes ok but with an actual length different from
    the requested length. -/
def mismatch : TrfOutcome := .complete fun L => (true, L + 1)

/-- Observable behaviour of one whole write operation:
    the payloads of the submitted transfers in submission order, the
    statuses passed to the completion callback in order, and the successive
    values stored into the session cursor wdata->offset. -/
structure RunResult where
  transfers : List (List Nat)
  callbacks : List Int
  offsets : List Nat

/-- The writer's driving loop: continue_write_regv together with
    write_regv_trf_complete and do_write_regv, resolved against the list of
    per-transfer environment outcomes.  Each iteration skips barriers,
    checks for completion (callback 0), computes the batch window, packs the
    payload, and then consumes one outcome: a submission failure ends the
    operation with -EIO and no transfer; a completed transfer with a bad
    status ends it with -EIO; a completed transfer with a length mismatch
    ends it with -EPROTO; otherwise the cursor advances past the batch and
    the loop continues.  An exhausted outcome list leaves the operation
    unresolved (no callback). -/
def runWrite (regs : List RegWrite) : List TrfOutcome → Nat → RunResult
  | oracle, offset =>
    let off := skipZeros regs offset
    if regs.length ≤ off then
      { transfers := [], callbacks := [0], offsets := [] }
    else
      let ub := batchUpperBound regs off
      let payload := packLoop regs off (ub + 1 - off)
      match oracle with
      | [] => { transfers := [], callbacks := [], offsets := [off] }
      | TrfOutcome.submitFail :: _ =>
        { transfers := [], callbacks := [-eio], offsets := [off] }
      | TrfOutcome.complete f :: rest =>
        let res := f payload.length
        if res.1 = false then
          { transfers := [payload], callbacks := [-eio], offsets := [off, ub + 1] }
        else if res.2 ≠ payload.length then
          { transfers := [payload], callbacks := [-eproto], offsets := [off, ub + 1] }
        else
          let r := runWrite regs rest (ub + 1)
          { transfers := payload :: r.transfers
            callbacks := r.callbacks
            offsets := off :: (ub + 1) :: r.offsets }

/-- One unfolding of the runWrite loop body, with the recursive call
    abstracted; used to state clean unfolding equations. -/
def runWriteBody (regs : List RegWrite) (oracle : List TrfOutcome) (offset : Nat)
    (rec : List TrfOutcome → Nat → RunResult) : RunResult :=
  let off := skipZeros regs offset
  if regs.length ≤ off then
    { transfers := [], callbacks := [0], offsets := [] }
  else
    let ub := batchUpperBound regs off
    let payload := packLoop regs off (ub + 1 - off)
    match oracle with
    | [] => { transfers := [], callbacks := [], offsets := [off] }
    | TrfOutcome.submitFail :: _ =>
      { transfers := [], callbacks := [-eio], offsets := [off] }
    | TrfOutcome.complete f :: rest =>
      let res := f payload.length
      if res.1 = false then
        { transfers := [payload], callbacks := [-eio], offsets := [off, ub + 1] }
      else if res.2 ≠ payload.length then
        { transfers := [payload], callbacks := [-eproto], offsets := [off, ub + 1] }
      else
        let r := rec rest (ub + 1)
        { transfers := payload :: r.transfers
          callbacks := r.callbacks
          offsets := off :: (ub + 1) :: r.offsets }

/-- aes_write_regv (lines 147-159): start a write operation with cursor 0. -/
def aes_write_regv (regs : List RegWrite) (oracle : List TrfOutcome) : RunResult :=
  runWrite regs oracle 0

/-- Pixel value of the even row of a pair: (b & 0x07) * 36, line 168. -/
def pixVal0 (b : Nat) : Nat := (b &&& 0x07) * 36

/-- Pixel value of the odd row of a pair: ((b & 0x70) >> 4) * 36, line 169. -/
def pixVal1 (b : Nat) : Nat := ((b &&& 0x70) >>> 4) * 36

/-- Inner loop of aes_assemble_image (lines 167-171), as the ordered list
    of (output index, value) stores it performs.  The C loop
    for (row = 0; row < height; row += 2) runs exactly ceil(height/2)
    iterations; that trip count is the structural argument n, while row and
    the running input index advance exactly as in the source. -/
def asmInner (width : Nat) (input : List Nat) : Nat → Nat → Nat → Nat → List (Nat × Nat)
  | 0, _, _, _ => []
  | n + 1, c, row, inIdx =>
    let b := input.getD inIdx 0
    (width * row + c, pixVal0 b) ::
      (width * (row + 1) + c, pixVal1 b) ::
      asmInner width input n c (row + 2) (inIdx + 1)

/-- Outer loop of aes_assemble_image (line 166): one column per iteration,
    width iterations in all; the input pointer advances by ceil(height/2)
    bytes per column, once per inner iteration. -/
def asmOuter (width height : Nat) (input : List Nat) : Nat → Nat → Nat → List (Nat × Nat)
  | 0, _, _ => []
  | n + 1, c, inIdx =>
    asmInner width input ((height + 1) / 2) c 0 inIdx ++
      asmOuter width height input n (c + 1) (inIdx + (height + 1) / 2)

/-- The ordered list of stores performed by aes_assemble_image. -/
def asmTrace (input : List Nat) (width height : Nat) : List (Nat × Nat) :=
  asmOuter width height input width 0 0

/-- Apply a list of (index, value) stores to a buffer, in order. -/
def writeList (ws : List (Nat × Nat)) (out : List Nat) : List Nat :=
  ws.foldl (fun o iv => o.set iv.1 iv.2) out

/-- aes_assemble_image (lines 161-173): the output buffer after all stores
    of the two nested loops have been applied in order. -/
def aes_assemble_image (input : List Nat) (width height : Nat)
    (output : List Nat) : List Nat :=
  writeList (asmTrace input width height) output

/-- Stores of one column as described by the specification: for row pair k
    of column c the consumed byte is input[base + k] and the two stores are
    out[width*(2k) + c] and out[width*(2k+1) + c]. -/
def specColWrites (width : Nat) (input : List Nat) (c base m : Nat) :
    List (Nat × Nat) :=
  (List.range m).flatMap fun k =>
    [(width * (2 * k) + c, pixVal0 (input.getD (base + k) 0)),
     (width * (2 * k + 1) + c, pixVal1 (input.getD (base + k) 0))]

/-- All stores of the assembler as described by the specification: columns
    in order, m row pairs per column, input consumed in column-major,
    row-pair-major order (byte index c * m + k). -/
def specAllWrites (width m : Nat) (input : List Nat) : List (Nat × Nat) :=
  (List.range width).flatMap fun c => specColWrites width input c (c * m) m

/-- Closed form of the inner loop trace: iteration k of the n row-pair
    iterations reads input byte inIdx + k and stores the two pixel values of
    rows row + 2k and row + 2k + 1 of column c. -/
theorem asmInner_eq (width : Nat) (input : List Nat) :
    ∀ n c row inIdx, asmInner width input n c row inIdx =
      (List.range n).flatMap fun k =>
        [(width * (row + 2 * k) + c, pixVal0 (input.getD (inIdx + k) 0)),
         (width * (row + 2 * k + 1) + c, pixVal1 (input.getD (inIdx + k) 0))] := by
  intro n
  induction n with
  | zero => intro c row inIdx; simp [asmInner]
  | succ n ih =>
    intro c row inIdx
    have hshift : ((List.range n).flatMap fun a =>
        [(width * (row + 2 * (a + 1)) + c, pixVal0 (input.getD (inIdx + (a + 1)) 0)),
         (width * (row + 2 * (a + 1) + 1) + c, pixVal1 (input.getD (inIdx + (a + 1)) 0))])
        = (List.range n).flatMap fun k =>
        [(width * (row + 2 + 2 * k) + c, pixVal0 (input.getD (inIdx + 1 + k) 0)),
         (width * (row + 2 + 2 * k + 1) + c, pixVal1 (input.getD (inIdx + 1 + k) 0))] := by
      apply List.flatMap_congr
      intro k _
      have h1 : row + 2 * (k + 1) = row + 2 + 2 * k := by ring
      have h2 : inIdx + (k + 1) = inIdx + 1 + k := by ring
      rw [h1, h2]
    rw [List.range_succ_eq_map, List.flatMap_cons, List.flatMap_map]
    simp only [asmInner, ih c (row + 2) (inIdx + 1)]
    simp only [Nat.succ_eq_add_one]
    rw [hshift]
    simp [Nat.mul_zero, Nat.add_zero]

/-- Closed form of the outer loop trace: iteration t handles column c + t,
    starting at input byte inIdx + t * ceil(height/2). -/
theorem asmOuter_eq (width height : Nat) (input : List Nat) :
    ∀ n c inIdx, asmOuter width height input n c inIdx =
      (List.range n).flatMap fun t =>
        specColWrites width input (c + t) (inIdx + t * ((height + 1) / 2))
          ((height + 1) / 2) := by
  intro n
  induction n with
  | zero => intro c inIdx; simp [asmOuter]
  | succ n ih =>
    intro c inIdx
    have hshift : ((List.range n).flatMap fun a =>
        specColWrites width input (c + (a + 1))
          (inIdx + (a + 1) * ((height + 1) / 2)) ((height + 1) / 2))
        = (List.range n).flatMap fun t =>
        specColWrites width input (c + 1 + t)
          (inIdx + (height + 1) / 2 + t * ((height + 1) / 2)) ((height + 1) / 2) := by
      apply List.flatMap_congr
      intro k _
      have h1 : c + (k + 1) = c + 1 + k := by ring
      have h2 : inIdx + (k + 1) * ((height + 1) / 2)
          = inIdx + (height + 1) / 2 + k * ((height + 1) / 2) := by ring
      rw [h1, h2]
    rw [List.range_succ_eq_map, List.flatMap_cons, List.flatMap_map]
    simp only [asmOuter, ih (c + 1) (inIdx + (height + 1) / 2)]
    simp only [Nat.succ_eq_add_one]
    rw [hshift]
    congr 1
    rw [asmInner_eq]
    unfold specColWrites
    apply List.flatMap_congr
    intro k _
    simp [Nat.zero_add, Nat.add_zero]

/-- The trace of aes_assemble_image is exactly the column-major,
    row-pair-major store sequence described by the specification, with
    ceil(height/2) row pairs per column. -/
theorem asmTrace_eq (input : List Nat) (width height : Nat) :
    asmTrace input width height = specAllWrites width ((height + 1) / 2) input := by
  unfold asmTrace specAllWrites
  rw [asmOuter_eq]
  apply List.flatMap_congr
  intro c _
  simp

/-- Even and odd rows interleave: the row pairs (2k, 2k+1) for k < m
    enumerate exactly the rows 0 .. 2m-1 in order. -/
theorem pairRange : ∀ m : Nat,
    ((List.range m).flatMap fun k => [2 * k, 2 * k + 1]) = List.range (2 * m) := by
  intro m
  induction m with
  | zero => simp
  | succ m ih =>
    rw [List.range_succ, List.flatMap_append, ih]
    have h2 : 2 * (m + 1) = 2 * m + 1 + 1 := by ring
    rw [h2, List.range_succ, List.range_succ]
    simp

/-- The store indices of the spec trace, column by column: for column c
    they are w*r + c for rows r < 2m. -/
theorem mapFst_specAllWrites (w m : Nat) (input : List Nat) :
    (specAllWrites w m input).map Prod.fst
      = (List.range w).flatMap fun c => (List.range (2 * m)).map fun r => w * r + c := by
  unfold specAllWrites specColWrites
  rw [List.map_flatMap]
  apply List.flatMap_congr
  intro c _
  rw [List.map_flatMap, ← pairRange m, List.map_flatMap]
  apply List.flatMap_congr
  intro k _
  simp

/-- Membership in the index enumeration is exactly being a legal output
    index. -/
theorem mem_colIdx_iff (w h j : Nat) :
    (j ∈ (List.range w).flatMap fun c => (List.range h).map fun r => w * r + c)
      ↔ j < w * h := by
  simp only [List.mem_flatMap, List.mem_map, List.mem_range]
  constructor
  · rintro ⟨c, hc, r, hr, rfl⟩
    calc w * r + c < w * r + w := by omega
      _ = w * (r + 1) := by ring
      _ ≤ w * h := Nat.mul_le_mul_left w hr
  · intro hj
    have hw : 0 < w := by
      rcases Nat.eq_zero_or_pos w with h0 | h0
      · subst h0; simp at hj
      · exact h0
    refine ⟨j % w, Nat.mod_lt _ hw, j / w, ?_, ?_⟩
    · rw [Nat.div_lt_iff_lt_mul hw]
      calc j < w * h := hj
        _ = h * w := by ring
    · have := Nat.div_add_mod j w
      omega

/-- The index enumeration has no duplicates. -/
theorem nodup_colIdx (w h : Nat) :
    ((List.range w).flatMap fun c => (List.range h).map fun r => w * r + c).Nodup := by
  rcases Nat.eq_zero_or_pos w with h0 | hw
  · subst h0; simp
  · rw [List.nodup_flatMap]
    constructor
    · intro c _
      apply List.Nodup.map _ (List.nodup_range h)
      intro r₁ r₂ hr
      have hr' : w * r₁ + c = w * r₂ + c := hr
      have h1 : w * r₁ = w * r₂ := by omega
      exact Nat.eq_of_mul_eq_mul_left hw h1
    · rw [List.pairwise_iff_getElem]
      intro i j hi hj hij
      rw [List.getElem_range, List.getElem_range]
      simp only [List.length_range] at hi hj
      intro x hx₁ hx₂
      simp only [List.mem_map, List.mem_range] at hx₁ hx₂
      obtain ⟨r₁, _, he₁⟩ := hx₁
      obtain ⟨r₂, _, he₂⟩ := hx₂
      have hm₁ : x % w = i := by
        rw [← he₁, Nat.mul_add_mod]
        exact Nat.mod_eq_of_lt hi
      have hm₂ : x % w = j := by
        rw [← he₂, Nat.mul_add_mod]
        exact Nat.mod_eq_of_lt hj
      omega

/-- Pixel values only look at the low three bits (even row) or at bits 4-6
    (odd row) of the sample byte. -/
theorem pixVal_masks (b : Nat) :
    pixVal0 b = pixVal0 (b &&& 0x07) ∧ pixVal1 b = pixVal1 (b &&& 0x70) := by
  unfold pixVal0 pixVal1
  constructor
  · rw [Nat.land_assoc, Nat.and_self]
  · rw [Nat.land_assoc, Nat.and_self]

/-- Bytes agreeing on mask 0x77 produce the same pixel values. -/
theorem pixVal_of_mask_eq (b b' : Nat) (hm : b &&& 0x77 = b' &&& 0x77) :
    pixVal0 b = pixVal0 b' ∧ pixVal1 b = pixVal1 b' := by
  unfold pixVal0 pixVal1
  have m1 : (0x77 &&& 0x07 : Nat) = 0x07 := by decide
  have m2 : (0x77 &&& 0x70 : Nat) = 0x70 := by decide
  have h0 : b &&& 0x07 = b' &&& 0x07 := by
    rw [← m1, ← Nat.land_assoc, ← Nat.land_assoc, hm]
  have h1 : b &&& 0x70 = b' &&& 0x70 := by
    rw [← m2, ← Nat.land_assoc, ← Nat.land_assoc, hm]
  rw [h0, h1]
  exact ⟨rfl, rfl⟩

/-- C1: for every raw buffer, width w and even height h (raw buffer at
    least w*h/2 bytes, output buffer exactly w*h bytes), aes_assemble_image
    consumes input bytes in column-major, row-pair-major order and, for the
    byte b consumed at column c and row pair (row, row+1), stores
    output[w*row + c] = (b & 0x07) * 36 and
    output[w*(row+1) + c] = ((b & 0x70) >> 4) * 36; in particular, for
    w = 2, h = 2 and raw bytes [0x12, 0x34] the row-major output is
    [72, 144, 36, 108]. -/
theorem C1_assemble_trace (input out : List Nat) (w h : Nat)
    (hh : h % 2 = 0) (_hin : w * h / 2 ≤ input.length)
    (_hout : out.length = w * h) :
    asmTrace input w h = specAllWrites w (h / 2) input ∧
    aes_assemble_image [0x12, 0x34] 2 2 [0, 0, 0, 0] = [72, 144, 36, 108] := by
  refine ⟨?_, by decide⟩
  rw [asmTrace_eq]
  have h2 : (h + 1) / 2 = h / 2 := by omega
  rw [h2]

/-- Witness for C1 at w = 2, h = 2, raw [0x12, 0x34]. -/
theorem C1_assemble_trace_witness :
    2 % 2 = 0 ∧ 2 * 2 / 2 ≤ ([0x12, 0x34] : List Nat).length ∧
    ([0, 0, 0, 0] : List Nat).length = 2 * 2 ∧
    (asmTrace [0x12, 0x34] 2 2 = specAllWrites 2 (2 / 2) [0x12, 0x34] ∧
      aes_assemble_image [0x12, 0x34] 2 2 [0, 0, 0, 0] = [72, 144, 36, 108]) :=
  ⟨by decide, by decide, by decide,
    C1_assemble_trace [0x12, 0x34] [0, 0, 0, 0] 2 2 (by decide) (by decide)
      (by decide)⟩

/-- C7: for every width w and even height h, the assembler reads only
    input indices 0 .. w*h/2 - 1 (two inputs agreeing there give identical
    results on any output buffer), and the store indices of its trace cover
    0 .. w*h - 1 with no index stored twice. -/
theorem C7_assemble_coverage (w h : Nat) (hh : h % 2 = 0) :
    (∀ input input' out : List Nat,
        (∀ i, i < w * h / 2 → input.getD i 0 = input'.getD i 0) →
        aes_assemble_image input w h out = aes_assemble_image input' w h out) ∧
    (∀ input : List Nat,
        ((asmTrace input w h).map Prod.fst).Nodup ∧
        ∀ j, j ∈ (asmTrace input w h).map Prod.fst ↔ j < w * h) := by
  obtain ⟨t, rfl⟩ : ∃ t, h = 2 * t := ⟨h / 2, by omega⟩
  have hm : (2 * t + 1) / 2 = t := by omega
  have hwh2 : w * (2 * t) / 2 = w * t := by
    rw [show w * (2 * t) = 2 * (w * t) by ring]
    exact Nat.mul_div_cancel_left _ (by norm_num)
  constructor
  · intro input input' out hag
    unfold aes_assemble_image
    congr 1
    rw [asmTrace_eq, asmTrace_eq, hm]
    unfold specAllWrites
    apply List.flatMap_congr
    intro c hc
    rw [List.mem_range] at hc
    unfold specColWrites
    apply List.flatMap_congr
    intro k hk
    rw [List.mem_range] at hk
    have hidx : c * t + k < w * t := by
      calc c * t + k < c * t + t := by omega
        _ = (c + 1) * t := by ring
        _ ≤ w * t := Nat.mul_le_mul_right t hc
    have hb := hag (c * t + k) (by rw [hwh2]; exact hidx)
    rw [hb]
  · intro input
    have hmap : (asmTrace input w (2 * t)).map Prod.fst
        = (List.range w).flatMap fun c => (List.range (2 * t)).map fun r => w * r + c := by
      rw [asmTrace_eq, hm, mapFst_specAllWrites]
    rw [hmap]
    exact ⟨nodup_colIdx w (2 * t), fun j => mem_colIdx_iff w (2 * t) j⟩

/-- Witness for C7 at w = 2, h = 2: two raw buffers agreeing on the two
    read bytes give the same image, and the stored indices of a concrete
    trace enumerate 0..3 without repetition. -/
theorem C7_assemble_coverage_witness :
    aes_assemble_image [0x12, 0x34] 2 2 [9, 9, 9, 9]
      = aes_assemble_image [0x12, 0x34, 0xFF] 2 2 [9, 9, 9, 9] ∧
    ((asmTrace [0x12, 0x34] 2 2).map Prod.fst).Nodup ∧
    (3 ∈ (asmTrace [0x12, 0x34] 2 2).map Prod.fst ↔ 3 < 2 * 2) := by
  have hc := C7_assemble_coverage 2 2 (by decide)
  refine ⟨hc.1 [0x12, 0x34] [0x12, 0x34, 0xFF] [9, 9, 9, 9] ?_,
    (hc.2 [0x12, 0x34]).1, (hc.2 [0x12, 0x34]).2 3⟩
  intro i hi
  interval_cases i <;> decide

/-- C10: every stored byte is u * 36 for some u in 0..7, hence a multiple
    of 36 at most 252 (no wrap modulo 256); the even-row value depends only
    on bits 0-2 and the odd-row value only on bits 4-6 of the source byte,
    and bits 3 and 7 of the input bytes never influence the trace. -/
theorem C10_pixel_values :
    (∀ (input : List Nat) (w h : Nat), ∀ iv ∈ asmTrace input w h,
        ∃ u, u ≤ 7 ∧ iv.2 = u * 36 ∧ iv.2 ≤ 252 ∧ iv.2 % 36 = 0) ∧
    (∀ b, pixVal0 b = pixVal0 (b &&& 0x07) ∧ pixVal1 b = pixVal1 (b &&& 0x70)) ∧
    (∀ (input input' : List Nat) (w h : Nat),
        (∀ i, input.getD i 0 &&& 0x77 = input'.getD i 0 &&& 0x77) →
        asmTrace input w h = asmTrace input' w h) := by
  refine ⟨?_, fun b => pixVal_masks b, ?_⟩
  · intro input w h iv hiv
    rw [asmTrace_eq] at hiv
    unfold specAllWrites specColWrites at hiv
    rw [List.mem_flatMap] at hiv
    obtain ⟨c, _, hiv⟩ := hiv
    rw [List.mem_flatMap] at hiv
    obtain ⟨k, _, hiv⟩ := hiv
    simp only [List.mem_cons, List.not_mem_nil, or_false] at hiv
    rcases hiv with h1 | h1
    · refine ⟨input.getD (c * ((h + 1) / 2) + k) 0 &&& 0x07, Nat.and_le_right, ?_, ?_, ?_⟩
      · rw [h1]; rfl
      · rw [h1]
        have hu : input.getD (c * ((h + 1) / 2) + k) 0 &&& 0x07 ≤ 7 := Nat.and_le_right
        show pixVal0 _ ≤ 252
        unfold pixVal0
        omega
      · rw [h1]
        exact Nat.mul_mod_left _ 36
    · refine ⟨(input.getD (c * ((h + 1) / 2) + k) 0 &&& 0x70) >>> 4, ?_, ?_, ?_, ?_⟩
      · rw [Nat.shiftRight_eq_div_pow]
        calc (input.getD (c * ((h + 1) / 2) + k) 0 &&& 0x70) / 2 ^ 4
            ≤ 0x70 / 2 ^ 4 := Nat.div_le_div_right Nat.and_le_right
          _ = 7 := by norm_num
      · rw [h1]; rfl
      · rw [h1]
        have hu : (input.getD (c * ((h + 1) / 2) + k) 0 &&& 0x70) >>> 4 ≤ 7 := by
          rw [Nat.shiftRight_eq_div_pow]
          calc (input.getD (c * ((h + 1) / 2) + k) 0 &&& 0x70) / 2 ^ 4
              ≤ 0x70 / 2 ^ 4 := Nat.div_le_div_right Nat.and_le_right
            _ = 7 := by norm_num
        show pixVal1 _ ≤ 252
        unfold pixVal1
        omega
      · rw [h1]
        exact Nat.mul_mod_left _ 36
  · intro input input' w h hmask
    rw [asmTrace_eq, asmTrace_eq]
    unfold specAllWrites
    apply List.flatMap_congr
    intro c _
    unfold specColWrites
    apply List.flatMap_congr
    intro k _
    have hp := pixVal_of_mask_eq _ _ (hmask (c * ((h + 1) / 2) + k))
    rw [hp.1, hp.2]

/-- Witness for C10: the stored pair (0, 72) of a concrete trace is a
    legal multiple of 36, and flipping bits 3 and 7 of the input byte
    (0x12 vs 0x9A) leaves the trace unchanged. -/
theorem C10_pixel_values_witness :
    (∃ u, u ≤ 7 ∧ ((0, 72) : Nat × Nat).2 = u * 36 ∧
      ((0, 72) : Nat × Nat).2 ≤ 252 ∧ ((0, 72) : Nat × Nat).2 % 36 = 0) ∧
    asmTrace [0x9A] 1 2 = asmTrace [0x12] 1 2 := by
  constructor
  · exact C10_pixel_values.1 [0x12, 0x34] 2 2 (0, 72) (by decide)
  · apply C10_pixel_values.2.2 [0x9A] [0x12] 1 2
    intro i
    match i with
    | 0 => decide
    | i + 1 => rfl

/-- Indexing into a dropped list. -/
theorem getD_drop {α : Type} (l : List α) :
    ∀ m n (d : α), (l.drop m).getD n d = l.getD (m + n) d := by
  induction l with
  | nil => intro m n d; simp
  | cons a t ih =>
    intro m n d
    match m with
    | 0 => simp
    | m + 1 =>
      show (t.drop m).getD n d = (a :: t).getD (m + 1 + n) d
      rw [ih m n d]
      have : m + 1 + n = m + n + 1 := by ring
      rw [this, List.getD_cons_succ]

/-- A list dropped before an in-bounds index n is that element consed on
    the rest. -/
theorem drop_getD_cons {α : Type} (l : List α) :
    ∀ (n : Nat) (d : α), n < l.length → l.drop n = l.getD n d :: l.drop (n + 1) := by
  induction l with
  | nil => intro n d h; simp at h
  | cons a t ih =>
    intro n d h
    match n with
    | 0 => rfl
    | n + 1 =>
      show t.drop n = (a :: t).getD (n + 1) d :: t.drop (n + 1)
      rw [List.getD_cons_succ]
      exact ih n d (by simpa using h)

/-- takeWhile is the prefix of its own length. -/
theorem takeWhile_eq_take {α : Type} (p : α → Bool) :
    ∀ l : List α, l.takeWhile p = l.take (l.takeWhile p).length := by
  intro l
  induction l with
  | nil => rfl
  | cons a t ih =>
    rw [List.takeWhile_cons]
    by_cases hp : p a = true
    · rw [if_pos hp]
      simp only [List.length_cons, List.take_succ_cons]
      rw [← ih]
    · rw [if_neg hp]
      rfl

/-- takeWhile never exceeds the list length. -/
theorem takeWhile_length_le {α : Type} (p : α → Bool) :
    ∀ l : List α, (l.takeWhile p).length ≤ l.length := by
  intro l
  induction l with
  | nil => simp
  | cons a t ih =>
    rw [List.takeWhile_cons]
    by_cases hp : p a = true
    · rw [if_pos hp]; simpa using ih
    · rw [if_neg hp]; simp

/-- Every position inside the takeWhile prefix satisfies the predicate. -/
theorem takeWhile_getD {α : Type} (p : α → Bool) (d : α) :
    ∀ (l : List α) i, i < (l.takeWhile p).length → p (l.getD i d) = true := by
  intro l
  induction l with
  | nil => intro i h; simp at h
  | cons a t ih =>
    intro i h
    rw [List.takeWhile_cons] at h
    by_cases hp : p a = true
    · rw [if_pos hp] at h
      match i with
      | 0 => exact hp
      | i + 1 =>
        rw [List.getD_cons_succ]
        exact ih i (by simpa using h)
    · rw [if_neg hp] at h
      simp at h

/-- The skip loop never moves the cursor backwards. -/
theorem skipZerosGo_ge (regs : List RegWrite) :
    ∀ fuel offset, offset ≤ skipZerosGo regs fuel offset := by
  intro fuel
  induction fuel with
  | zero => intro offset; exact Nat.le_refl _
  | succ fuel ih =>
    intro offset
    unfold skipZerosGo
    by_cases hz : (regs.getD offset rw0).reg = 0
    · rw [if_pos hz]
      exact Nat.le_trans (Nat.le_succ offset) (ih (offset + 1))
    · rw [if_neg hz]

/-- The skip loop never moves the cursor backwards (top level). -/
theorem skipZeros_ge (regs : List RegWrite) (offset : Nat) :
    offset ≤ skipZeros regs offset :=
  skipZerosGo_ge regs _ offset

/-- Dropping at the skip loop's result removes exactly the leading
    barrier run. -/
theorem skipZerosGo_drop (regs : List RegWrite) :
    ∀ fuel offset, regs.length - offset ≤ fuel →
      regs.drop (skipZerosGo regs fuel offset)
        = (regs.drop offset).dropWhile isBarrier := by
  intro fuel
  induction fuel with
  | zero =>
    intro offset h
    have hnil : regs.drop offset = [] := List.drop_eq_nil_iff.mpr (by omega)
    have hred : skipZerosGo regs 0 offset = offset := rfl
    rw [hred, hnil, List.dropWhile_nil]
  | succ fuel ih =>
    intro offset h
    have hred : skipZerosGo regs (fuel + 1) offset
        = if (regs.getD offset rw0).reg = 0 then skipZerosGo regs fuel (offset + 1)
          else offset := rfl
    by_cases hin : offset < regs.length
    · have hd := drop_getD_cons regs offset rw0 hin
      by_cases hz : (regs.getD offset rw0).reg = 0
      · rw [hred, if_pos hz, ih (offset + 1) (by omega), hd, List.dropWhile_cons]
        have hb : isBarrier (regs.getD offset rw0) = true := by
          simp only [isBarrier, beq_iff_eq]
          exact hz
        rw [if_pos hb]
      · rw [hred, if_neg hz, hd, List.dropWhile_cons]
        have hb : isBarrier (regs.getD offset rw0) = false := by
          simp only [isBarrier]
          simpa using hz
        rw [hb]
        simp [← hd]
    · have hnil : regs.drop offset = [] := List.drop_eq_nil_iff.mpr (by omega)
      have hge := skipZerosGo_ge regs (fuel + 1) offset
      have hnil' : regs.drop (skipZerosGo regs (fuel + 1) offset) = [] :=
        List.drop_eq_nil_iff.mpr (by omega)
      rw [hnil', hnil, List.dropWhile_nil]

/-- Dropping at skipZeros removes exactly the leading barrier run. -/
theorem skipZeros_drop (regs : List RegWrite) (offset : Nat) :
    regs.drop (skipZeros regs offset) = (regs.drop offset).dropWhile isBarrier :=
  skipZerosGo_drop regs _ offset (Nat.le_refl _)

/-- When the skip loop stops inside the sequence, it stops on a
    non-barrier entry. -/
theorem skipZerosGo_nz (regs : List RegWrite) :
    ∀ fuel offset, regs.length - offset ≤ fuel →
      skipZerosGo regs fuel offset < regs.length →
      (regs.getD (skipZerosGo regs fuel offset) rw0).reg ≠ 0 := by
  intro fuel
  induction fuel with
  | zero =>
    intro offset h hlt
    have hred : skipZerosGo regs 0 offset = offset := rfl
    rw [hred] at hlt
    omega
  | succ fuel ih =>
    intro offset h hlt
    have hred : skipZerosGo regs (fuel + 1) offset
        = if (regs.getD offset rw0).reg = 0 then skipZerosGo regs fuel (offset + 1)
          else offset := rfl
    rw [hred] at hlt ⊢
    by_cases hz : (regs.getD offset rw0).reg = 0
    · rw [if_pos hz] at hlt ⊢
      exact ih (offset + 1) (by omega) hlt
    · rw [if_neg hz]
      exact hz

/-- When skipZeros stops inside the sequence, it stops on a non-barrier
    entry. -/
theorem skipZeros_nz (regs : List RegWrite) (offset : Nat) :
    skipZeros regs offset < regs.length →
    (regs.getD (skipZeros regs offset) rw0).reg ≠ 0 :=
  skipZerosGo_nz regs _ offset (Nat.le_refl _)

/-- The barrier scan finds exactly the end of the non-barrier run from i,
    if it lies inside the window. -/
theorem findZeroGo_eq (regs : List RegWrite) :
    ∀ fuel i ub, fuel = ub + 1 - i → ub < regs.length →
      findZeroGo regs fuel i =
        if i + ((regs.drop i).takeWhile nonBarrier).length ≤ ub
        then some (i + ((regs.drop i).takeWhile nonBarrier).length)
        else none := by
  intro fuel
  induction fuel with
  | zero =>
    intro i ub hfuel hub
    have hred : findZeroGo regs 0 i = none := rfl
    rw [hred, if_neg (by omega)]
  | succ fuel ih =>
    intro i ub hfuel hub
    have hi : i ≤ ub := by omega
    have hin : i < regs.length := by omega
    have hd := drop_getD_cons regs i rw0 hin
    have hred : findZeroGo regs (fuel + 1) i
        = if (regs.getD i rw0).reg = 0 then some i else findZeroGo regs fuel (i + 1) :=
      rfl
    rw [hred]
    by_cases hz : (regs.getD i rw0).reg = 0
    · rw [if_pos hz]
      have hT : ((regs.drop i).takeWhile nonBarrier).length = 0 := by
        rw [hd, List.takeWhile_cons]
        have hnb : nonBarrier (regs.getD i rw0) = false := by
          simp only [nonBarrier]
          rw [hz]
          rfl
        rw [hnb]
        rfl
      rw [hT, if_pos (by omega)]
      simp
    · rw [if_neg hz]
      have hT : ((regs.drop i).takeWhile nonBarrier).length
          = ((regs.drop (i + 1)).takeWhile nonBarrier).length + 1 := by
        rw [hd, List.takeWhile_cons]
        have hnb : nonBarrier (regs.getD i rw0) = true := by
          simp only [nonBarrier, bne_iff_ne, ne_eq]
          exact hz
        rw [if_pos hnb]
        rfl
      rw [ih (i + 1) ub (by omega) hub, hT]
      by_cases hc : i + 1 + ((regs.drop (i + 1)).takeWhile nonBarrier).length ≤ ub
      · rw [if_pos hc, if_pos (by omega)]
        congr 1
        omega
      · rw [if_neg hc, if_neg (by omega)]

/-- Top-level form of the barrier-scan characterization. -/
theorem findZero_eq (regs : List RegWrite) (i ub : Nat) (hub : ub < regs.length) :
    findZero regs i ub =
      if i + ((regs.drop i).takeWhile nonBarrier).length ≤ ub
      then some (i + ((regs.drop i).takeWhile nonBarrier).length)
      else none :=
  findZeroGo_eq regs _ i ub rfl hub

/-- Truncating the takeWhile prefix is truncating the list. -/
theorem take_takeWhile_take {α : Type} (p : α → Bool) (l : List α) (n k : Nat)
    (h : k = min n (l.takeWhile p).length) :
    (l.takeWhile p).take n = l.take k := by
  rw [takeWhile_eq_take p l, List.take_take, h]

/-- Batch window facts: starting from a non-barrier cursor position off
    inside the sequence, the batch [off, batchUpperBound] is nonempty, at
    most MAX_REGWRITES_PER_REQUEST writes, stays inside the sequence, lies
    inside the leading non-barrier run, and equals a prefix of that run. -/
theorem window (regs : List RegWrite) (off : Nat) (hoff : off < regs.length)
    (hnz : (regs.getD off rw0).reg ≠ 0) :
    off ≤ batchUpperBound regs off ∧
    batchUpperBound regs off + 1 - off ≤ MAX_REGWRITES_PER_REQUEST ∧
    batchUpperBound regs off + 1 ≤ regs.length ∧
    batchUpperBound regs off + 1 - off
      ≤ ((regs.drop off).takeWhile nonBarrier).length ∧
    ((regs.drop off).takeWhile nonBarrier).take MAX_REGWRITES_PER_REQUEST
      = (regs.drop off).take (batchUpperBound regs off + 1 - off) := by
  have hd := drop_getD_cons regs off rw0 hoff
  have hnb : nonBarrier (regs.getD off rw0) = true := by
    simp only [nonBarrier, bne_iff_ne, ne_eq]
    exact hnz
  have htw : (regs.drop off).takeWhile nonBarrier
      = regs.getD off rw0 :: (regs.drop (off + 1)).takeWhile nonBarrier := by
    rw [hd, List.takeWhile_cons, if_pos hnb]
  have hT1 : 1 ≤ ((regs.drop off).takeWhile nonBarrier).length := by
    rw [htw]
    simp
  have hTL : ((regs.drop off).takeWhile nonBarrier).length ≤ regs.length - off := by
    have h1 := takeWhile_length_le nonBarrier (regs.drop off)
    rwa [List.length_drop] at h1
  have hM : MAX_REGWRITES_PER_REQUEST = 16 := rfl
  have hub0 : off + min (regs.length - off) MAX_REGWRITES_PER_REQUEST - 1
      < regs.length := by
    rw [hM]
    omega
  have hfz := findZero_eq regs off _ hub0
  by_cases hcase : off + ((regs.drop off).takeWhile nonBarrier).length
      ≤ off + min (regs.length - off) MAX_REGWRITES_PER_REQUEST - 1
  · have hsome : findZero regs off
        (off + min (regs.length - off) MAX_REGWRITES_PER_REQUEST - 1)
        = some (off + ((regs.drop off).takeWhile nonBarrier).length) := by
      rw [hfz, if_pos hcase]
    have hbu : batchUpperBound regs off
        = off + ((regs.drop off).takeWhile nonBarrier).length - 1 := by
      unfold batchUpperBound
      rw [hsome]
    rw [hM] at hcase ⊢
    refine ⟨by rw [hbu]; omega, by rw [hbu]; omega, by rw [hbu]; rw [hM] at hub0; omega,
      by rw [hbu]; omega, ?_⟩
    rw [hbu]
    apply take_takeWhile_take
    omega
  · have hnone : findZero regs off
        (off + min (regs.length - off) MAX_REGWRITES_PER_REQUEST - 1) = none := by
      rw [hfz, if_neg hcase]
    have hbu : batchUpperBound regs off
        = off + min (regs.length - off) MAX_REGWRITES_PER_REQUEST - 1 := by
      unfold batchUpperBound
      rw [hnone]
    rw [hM] at hcase hbu ⊢
    refine ⟨by rw [hbu]; omega, by rw [hbu]; omega, by rw [hbu]; omega,
      by rw [hbu]; omega, ?_⟩
    rw [hbu]
    apply take_takeWhile_take
    omega

/-- The payload bytes are the flat encoding of the packed slice. -/
theorem packLoop_eq (regs : List RegWrite) :
    ∀ num i, i + num ≤ regs.length →
      packLoop regs i num = ((regs.drop i).take num).flatMap encWrite := by
  intro num
  induction num with
  | zero => intro i h; rfl
  | succ num ih =>
    intro i h
    have hin : i < regs.length := by omega
    have hd := drop_getD_cons regs i rw0 hin
    have hred : packLoop regs i (num + 1)
        = (regs.getD i rw0).reg :: (regs.getD i rw0).value :: packLoop regs (i + 1) num :=
      rfl
    rw [hred, hd, List.take_succ_cons, List.flatMap_cons, ih (i + 1) (by omega)]
    rfl

/-- Payload length is two bytes per packed write. -/
theorem packLoop_length (regs : List RegWrite) :
    ∀ num i, (packLoop regs i num).length = 2 * num := by
  intro num
  induction num with
  | zero => intro i; rfl
  | succ num ih =>
    intro i
    have hred : packLoop regs i (num + 1)
        = (regs.getD i rw0).reg :: (regs.getD i rw0).value :: packLoop regs (i + 1) num :=
      rfl
    rw [hred]
    simp only [List.length_cons, ih (i + 1)]
    omega

/-- Even payload positions carry the register ids of the packed writes. -/
theorem packLoop_getD_even (regs : List RegWrite) :
    ∀ num i k, k < num →
      (packLoop regs i num).getD (2 * k) 0 = (regs.getD (i + k) rw0).reg := by
  intro num
  induction num with
  | zero => intro i k h; omega
  | succ num ih =>
    intro i k h
    have hred : packLoop regs i (num + 1)
        = (regs.getD i rw0).reg :: (regs.getD i rw0).value :: packLoop regs (i + 1) num :=
      rfl
    rw [hred]
    match k with
    | 0 => rfl
    | k + 1 =>
      have h2 : 2 * (k + 1) = 2 * k + 1 + 1 := by ring
      rw [h2, List.getD_cons_succ, List.getD_cons_succ, ih (i + 1) k (by omega)]
      have h3 : i + 1 + k = i + (k + 1) := by ring
      rw [h3]

/-- The driving loop satisfies its one-step unfolding equation. -/
theorem runWrite_eq (regs : List RegWrite) (oracle : List TrfOutcome) (offset : Nat) :
    runWrite regs oracle offset = runWriteBody regs oracle offset (runWrite regs) := by
  cases oracle with
  | nil => rfl
  | cons o rest =>
    cases o with
    | submitFail => rfl
    | complete f => rfl

/-- Unfolding: if the skip loop reaches the end, the run reports success
    immediately. -/
theorem runWrite_done (regs : List RegWrite) (oracle : List TrfOutcome) (offset : Nat)
    (h : regs.length ≤ skipZeros regs offset) :
    runWrite regs oracle offset = ⟨[], [0], []⟩ := by
  rw [runWrite_eq]
  simp only [runWriteBody]
  rw [if_pos h]

/-- Unfolding: mid-sequence with an exhausted outcome list, the run halts
    unresolved. -/
theorem runWrite_pending (regs : List RegWrite) (offset : Nat)
    (h : ¬ regs.length ≤ skipZeros regs offset) :
    runWrite regs [] offset = ⟨[], [], [skipZeros regs offset]⟩ := by
  rw [runWrite_eq]
  simp only [runWriteBody]
  rw [if_neg h]

/-- Unfolding: mid-sequence with a failed submission, the run ends with
    callback -EIO and no transfer. -/
theorem runWrite_submitFail (regs : List RegWrite) (offset : Nat)
    (rest : List TrfOutcome) (h : ¬ regs.length ≤ skipZeros regs offset) :
    runWrite regs (TrfOutcome.submitFail :: rest) offset
      = ⟨[], [-eio], [skipZeros regs offset]⟩ := by
  rw [runWrite_eq]
  simp only [runWriteBody]
  rw [if_neg h]

/-- Unfolding: mid-sequence with a completed transfer, the run branches on
    the completion status and the transferred length. -/
theorem runWrite_complete (regs : List RegWrite) (offset : Nat)
    (f : Nat → Bool × Nat) (rest : List TrfOutcome) (off ub : Nat)
    (payload : List Nat) (hoff : off = skipZeros regs offset)
    (hub : ub = batchUpperBound regs off)
    (hpay : payload = packLoop regs off (ub + 1 - off))
    (h : ¬ regs.length ≤ off) :
    runWrite regs (TrfOutcome.complete f :: rest) offset =
      if (f payload.length).1 = false then
        ⟨[payload], [-eio], [off, ub + 1]⟩
      else if (f payload.length).2 ≠ payload.length then
        ⟨[payload], [-eproto], [off, ub + 1]⟩
      else
        ⟨payload :: (runWrite regs rest (ub + 1)).transfers,
         (runWrite regs rest (ub + 1)).callbacks,
         off :: (ub + 1) :: (runWrite regs rest (ub + 1)).offsets⟩ := by
  subst hpay
  subst hub
  subst hoff
  rw [runWrite_eq]
  simp only [runWriteBody]
  rw [if_neg h]

/-- Unfolding: mid-sequence with a fully successful transfer, the run
    records the payload and continues past the batch. -/
theorem runWrite_success_step (regs : List RegWrite) (offset : Nat)
    (rest : List TrfOutcome) (off ub : Nat) (payload : List Nat)
    (hoff : off = skipZeros regs offset) (hub : ub = batchUpperBound regs off)
    (hpay : payload = packLoop regs off (ub + 1 - off))
    (h : ¬ regs.length ≤ off) :
    runWrite regs (success :: rest) offset =
      ⟨payload :: (runWrite regs rest (ub + 1)).transfers,
       (runWrite regs rest (ub + 1)).callbacks,
       off :: (ub + 1) :: (runWrite regs rest (ub + 1)).offsets⟩ := by
  have hc := runWrite_complete regs offset (fun L => (true, L)) rest off ub payload
    hoff hub hpay h
  have hs : success = TrfOutcome.complete (fun L => (true, L)) := rfl
  rw [hs, hc, if_neg (by simp), if_neg (by simp)]

/-- An in-bounds getD is a member of the list. -/
theorem getD_mem {α : Type} (l : List α) :
    ∀ (n : Nat) (d : α), n < l.length → l.getD n d ∈ l := by
  induction l with
  | nil => intro n d h; simp at h
  | cons a t ih =>
    intro n d h
    match n with
    | 0 => exact List.mem_cons_self a t
    | n + 1 =>
      rw [List.getD_cons_succ]
      exact List.mem_cons_of_mem a (ih n d (by simpa using h))

/-- Filtering out barriers ignores a leading barrier run. -/
theorem filter_dropWhile (l : List RegWrite) :
    l.filter nonBarrier = (l.dropWhile isBarrier).filter nonBarrier := by
  induction l with
  | nil => rfl
  | cons a t ih =>
    rw [List.dropWhile_cons]
    by_cases hz : a.reg = 0
    · have hb : isBarrier a = true := by
        simp only [isBarrier, beq_iff_eq]
        exact hz
      have hnb : nonBarrier a = false := by
        simp only [nonBarrier]
        rw [hz]
        rfl
      rw [if_pos hb, List.filter_cons, hnb]
      simpa using ih
    · have hb : isBarrier a = false := by
        simp only [isBarrier]
        simpa using hz
      rw [hb]
      simp

/-- Every index of the current batch holds a non-barrier entry. -/
theorem batch_nonbarrier (regs : List RegWrite) (off : Nat)
    (hoff : off < regs.length) (hnz : (regs.getD off rw0).reg ≠ 0) :
    ∀ j, off ≤ j → j < batchUpperBound regs off + 1 →
      (regs.getD j rw0).reg ≠ 0 := by
  obtain ⟨w1, w2, w3, w4, w5⟩ := window regs off hoff hnz
  intro j h1 h2
  have hlt : j - off < ((regs.drop off).takeWhile nonBarrier).length := by omega
  have htw := takeWhile_getD nonBarrier rw0 (regs.drop off) (j - off) hlt
  rw [getD_drop] at htw
  have hj : off + (j - off) = j := by omega
  rw [hj] at htw
  simp only [nonBarrier, bne_iff_ne, ne_eq] at htw
  exact htw

/-- One loop step splits the remaining non-barrier entries into the
    current batch followed by the entries after the batch. -/
theorem step_filter (regs : List RegWrite) (offset : Nat)
    (hlt : skipZeros regs offset < regs.length) :
    (regs.drop offset).filter nonBarrier
      = (regs.drop (skipZeros regs offset)).take
          (batchUpperBound regs (skipZeros regs offset) + 1 - skipZeros regs offset)
        ++ (regs.drop (batchUpperBound regs (skipZeros regs offset) + 1)).filter
            nonBarrier := by
  obtain ⟨w1, w2, w3, w4, w5⟩ :=
    window regs (skipZeros regs offset) hlt (skipZeros_nz regs offset hlt)
  have hmem : ∀ a ∈ (regs.drop (skipZeros regs offset)).take
      (batchUpperBound regs (skipZeros regs offset) + 1 - skipZeros regs offset),
      nonBarrier a = true := by
    intro a ha
    rw [← w5] at ha
    exact List.mem_takeWhile_imp (List.mem_of_mem_take ha)
  have hsplit : regs.drop (skipZeros regs offset)
      = (regs.drop (skipZeros regs offset)).take
          (batchUpperBound regs (skipZeros regs offset) + 1 - skipZeros regs offset)
        ++ regs.drop (batchUpperBound regs (skipZeros regs offset) + 1) := by
    conv_lhs => rw [← List.take_append_drop
      (batchUpperBound regs (skipZeros regs offset) + 1 - skipZeros regs offset)
      (regs.drop (skipZeros regs offset))]
    rw [List.drop_drop]
    congr 2
    omega
  calc (regs.drop offset).filter nonBarrier
      = ((regs.drop offset).dropWhile isBarrier).filter nonBarrier :=
        filter_dropWhile _
    _ = (regs.drop (skipZeros regs offset)).filter nonBarrier := by
        rw [skipZeros_drop]
    _ = ((regs.drop (skipZeros regs offset)).take
          (batchUpperBound regs (skipZeros regs offset) + 1 - skipZeros regs offset)).filter
            nonBarrier
        ++ (regs.drop (batchUpperBound regs (skipZeros regs offset) + 1)).filter
            nonBarrier := by
        conv_lhs => rw [hsplit]
        rw [List.filter_append]
    _ = _ := by rw [List.filter_eq_self.mpr hmem]

/-- A run in which every transfer succeeds reports success and transmits
    exactly the non-barrier entries after the cursor, in order, two bytes
    per write. -/
theorem success_run (regs : List RegWrite) :
    ∀ k offset, regs.length - offset ≤ k →
      (runWrite regs (List.replicate k success) offset).transfers.flatten
          = ((regs.drop offset).filter nonBarrier).flatMap encWrite ∧
      (runWrite regs (List.replicate k success) offset).callbacks = [0] := by
  intro k
  induction k with
  | zero =>
    intro offset h
    have hge := skipZeros_ge regs offset
    have hdone : regs.length ≤ skipZeros regs offset := by omega
    rw [runWrite_done regs _ offset hdone]
    have hnil : regs.drop offset = [] := List.drop_eq_nil_iff.mpr (by omega)
    rw [hnil]
    exact ⟨rfl, rfl⟩
  | succ k ih =>
    intro offset h
    by_cases hdone : regs.length ≤ skipZeros regs offset
    · rw [runWrite_done regs _ offset hdone]
      have hnil : regs.drop (skipZeros regs offset) = [] :=
        List.drop_eq_nil_iff.mpr hdone
      have hfil : (regs.drop offset).filter nonBarrier = [] := by
        rw [filter_dropWhile, ← skipZeros_drop, hnil]
        rfl
      rw [hfil]
      exact ⟨rfl, rfl⟩
    · have hlt : skipZeros regs offset < regs.length := by omega
      rw [List.replicate_succ]
      rw [runWrite_success_step regs offset (List.replicate k success) _ _ _
        rfl rfl rfl hdone]
      obtain ⟨w1, w2, w3, w4, w5⟩ :=
        window regs (skipZeros regs offset) hlt (skipZeros_nz regs offset hlt)
      have hge := skipZeros_ge regs offset
      have hih := ih (batchUpperBound regs (skipZeros regs offset) + 1) (by omega)
      dsimp only
      constructor
      · rw [List.flatten_cons, hih.1]
        rw [packLoop_eq regs _ _ (by omega)]
        rw [step_filter regs offset hlt]
        rw [List.flatMap_append]
      · exact hih.2

/-- Every payload ever submitted packs a nonempty batch of at most
    MAX_REGWRITES_PER_REQUEST writes, taken from a contiguous in-bounds
    barrier-free window of the sequence. -/
theorem transfers_shape (regs : List RegWrite) :
    ∀ (oracle : List TrfOutcome) (offset : Nat),
      ∀ p ∈ (runWrite regs oracle offset).transfers,
        ∃ o n, 1 ≤ n ∧ n ≤ MAX_REGWRITES_PER_REQUEST ∧ o + n ≤ regs.length ∧
          p = packLoop regs o n ∧
          ∀ j, o ≤ j → j < o + n → (regs.getD j rw0).reg ≠ 0 := by
  intro oracle
  induction oracle with
  | nil =>
    intro offset p hp
    by_cases hdone : regs.length ≤ skipZeros regs offset
    · rw [runWrite_done regs _ offset hdone] at hp
      simp at hp
    · rw [runWrite_pending regs offset hdone] at hp
      simp at hp
  | cons o rest ih =>
    intro offset p hp
    by_cases hdone : regs.length ≤ skipZeros regs offset
    · rw [runWrite_done regs _ offset hdone] at hp
      simp at hp
    · have hlt : skipZeros regs offset < regs.length := by omega
      have hnz := skipZeros_nz regs offset hlt
      obtain ⟨w1, w2, w3, w4, w5⟩ := window regs (skipZeros regs offset) hlt hnz
      have hshape : ∃ o n, 1 ≤ n ∧ n ≤ MAX_REGWRITES_PER_REQUEST ∧
          o + n ≤ regs.length ∧
          packLoop regs (skipZeros regs offset)
              (batchUpperBound regs (skipZeros regs offset) + 1
                - skipZeros regs offset)
            = packLoop regs o n ∧
          ∀ j, o ≤ j → j < o + n → (regs.getD j rw0).reg ≠ 0 := by
        refine ⟨skipZeros regs offset,
          batchUpperBound regs (skipZeros regs offset) + 1 - skipZeros regs offset,
          by omega, w2, by omega, rfl, ?_⟩
        intro j h1 h2
        exact batch_nonbarrier regs _ hlt hnz j h1 (by omega)
      cases o with
      | submitFail =>
        rw [runWrite_submitFail regs offset rest hdone] at hp
        simp at hp
      | complete f =>
        rw [runWrite_complete regs offset f rest _ _ _ rfl rfl rfl hdone] at hp
        by_cases hb1 : (f (packLoop regs (skipZeros regs offset)
            (batchUpperBound regs (skipZeros regs offset) + 1
              - skipZeros regs offset)).length).1 = false
        · rw [if_pos hb1] at hp
          dsimp only at hp
          rw [List.mem_singleton] at hp
          subst hp
          exact hshape
        · rw [if_neg hb1] at hp
          by_cases hb2 : (f (packLoop regs (skipZeros regs offset)
              (batchUpperBound regs (skipZeros regs offset) + 1
                - skipZeros regs offset)).length).2
              ≠ (packLoop regs (skipZeros regs offset)
                (batchUpperBound regs (skipZeros regs offset) + 1
                  - skipZeros regs offset)).length
          · rw [if_pos hb2] at hp
            dsimp only at hp
            rw [List.mem_singleton] at hp
            subst hp
            exact hshape
          · rw [if_neg hb2] at hp
            dsimp only at hp
            rw [List.mem_cons] at hp
            rcases hp with hp | hp
            · subst hp
              exact hshape
            · exact ih _ p hp

/-- Every value stored into the session cursor stays at most num_regs. -/
theorem offsets_bounded (regs : List RegWrite) :
    ∀ (oracle : List TrfOutcome) (offset : Nat),
      ∀ o ∈ (runWrite regs oracle offset).offsets, o ≤ regs.length := by
  intro oracle
  induction oracle with
  | nil =>
    intro offset o ho
    by_cases hdone : regs.length ≤ skipZeros regs offset
    · rw [runWrite_done regs _ offset hdone] at ho
      simp at ho
    · rw [runWrite_pending regs offset hdone] at ho
      rw [List.mem_singleton] at ho
      omega
  | cons oc rest ih =>
    intro offset o ho
    by_cases hdone : regs.length ≤ skipZeros regs offset
    · rw [runWrite_done regs _ offset hdone] at ho
      simp at ho
    · have hlt : skipZeros regs offset < regs.length := by omega
      have hnz := skipZeros_nz regs offset hlt
      obtain ⟨w1, w2, w3, w4, w5⟩ := window regs (skipZeros regs offset) hlt hnz
      cases oc with
      | submitFail =>
        rw [runWrite_submitFail regs offset rest hdone] at ho
        rw [List.mem_singleton] at ho
        omega
      | complete f =>
        rw [runWrite_complete regs offset f rest _ _ _ rfl rfl rfl hdone] at ho
        by_cases hb1 : (f (packLoop regs (skipZeros regs offset)
            (batchUpperBound regs (skipZeros regs offset) + 1
              - skipZeros regs offset)).length).1 = false
        · rw [if_pos hb1] at ho
          dsimp only at ho
          rw [List.mem_cons, List.mem_singleton] at ho
          rcases ho with ho | ho <;> omega
        · rw [if_neg hb1] at ho
          by_cases hb2 : (f (packLoop regs (skipZeros regs offset)
              (batchUpperBound regs (skipZeros regs offset) + 1
                - skipZeros regs offset)).length).2
              ≠ (packLoop regs (skipZeros regs offset)
                (batchUpperBound regs (skipZeros regs offset) + 1
                  - skipZeros regs offset)).length
          · rw [if_pos hb2] at ho
            dsimp only at ho
            rw [List.mem_cons, List.mem_singleton] at ho
            rcases ho with ho | ho <;> omega
          · rw [if_neg hb2] at ho
            dsimp only at ho
            rw [List.mem_cons, List.mem_cons] at ho
            rcases ho with ho | ho | ho
            · omega
            · omega
            · exact ih _ o ho

/-- The completion callback fires at most once per operation. -/
theorem callbacks_le_one (regs : List RegWrite) :
    ∀ (oracle : List TrfOutcome) (offset : Nat),
      (runWrite regs oracle offset).callbacks.length ≤ 1 := by
  intro oracle
  induction oracle with
  | nil =>
    intro offset
    by_cases hdone : regs.length ≤ skipZeros regs offset
    · rw [runWrite_done regs _ offset hdone]
      exact Nat.le_refl 1
    · rw [runWrite_pending regs offset hdone]
      exact Nat.zero_le 1
  | cons oc rest ih =>
    intro offset
    by_cases hdone : regs.length ≤ skipZeros regs offset
    · rw [runWrite_done regs _ offset hdone]
      exact Nat.le_refl 1
    · cases oc with
      | submitFail =>
        rw [runWrite_submitFail regs offset rest hdone]
        exact Nat.le_refl 1
      | complete f =>
        rw [runWrite_complete regs offset f rest _ _ _ rfl rfl rfl hdone]
        by_cases hb1 : (f (packLoop regs (skipZeros regs offset)
            (batchUpperBound regs (skipZeros regs offset) + 1
              - skipZeros regs offset)).length).1 = false
        · rw [if_pos hb1]
          exact Nat.le_refl 1
        · rw [if_neg hb1]
          by_cases hb2 : (f (packLoop regs (skipZeros regs offset)
              (batchUpperBound regs (skipZeros regs offset) + 1
                - skipZeros regs offset)).length).2
              ≠ (packLoop regs (skipZeros regs offset)
                (batchUpperBound regs (skipZeros regs offset) + 1
                  - skipZeros regs offset)).length
          · rw [if_pos hb2]
            exact Nat.le_refl 1
          · rw [if_neg hb2]
            exact ih _

/-- With one environment outcome available per remaining entry, the
    completion callback fires exactly once. -/
theorem callbacks_eq_one (regs : List RegWrite) :
    ∀ (oracle : List TrfOutcome) (offset : Nat),
      regs.length - offset ≤ oracle.length →
      (runWrite regs oracle offset).callbacks.length = 1 := by
  intro oracle
  induction oracle with
  | nil =>
    intro offset h
    have hge := skipZeros_ge regs offset
    rw [runWrite_done regs _ offset (by simp at h; omega)]
    rfl
  | cons oc rest ih =>
    intro offset h
    by_cases hdone : regs.length ≤ skipZeros regs offset
    · rw [runWrite_done regs _ offset hdone]
      rfl
    · have hlt : skipZeros regs offset < regs.length := by omega
      have hnz := skipZeros_nz regs offset hlt
      obtain ⟨w1, w2, w3, w4, w5⟩ := window regs (skipZeros regs offset) hlt hnz
      have hge := skipZeros_ge regs offset
      cases oc with
      | submitFail =>
        rw [runWrite_submitFail regs offset rest hdone]
        rfl
      | complete f =>
        rw [runWrite_complete regs offset f rest _ _ _ rfl rfl rfl hdone]
        by_cases hb1 : (f (packLoop regs (skipZeros regs offset)
            (batchUpperBound regs (skipZeros regs offset) + 1
              - skipZeros regs offset)).length).1 = false
        · rw [if_pos hb1]
          rfl
        · rw [if_neg hb1]
          by_cases hb2 : (f (packLoop regs (skipZeros regs offset)
              (batchUpperBound regs (skipZeros regs offset) + 1
                - skipZeros regs offset)).length).2
              ≠ (packLoop regs (skipZeros regs offset)
                (batchUpperBound regs (skipZeros regs offset) + 1
                  - skipZeros regs offset)).length
          · rw [if_pos hb2]
            rfl
          · rw [if_neg hb2]
            dsimp only
            apply ih
            simp only [List.length_cons] at h
            omega

/-- A status-0 callback certifies that the full non-barrier suffix was
    packed and transmitted. -/
theorem zero_callback (regs : List RegWrite) :
    ∀ (oracle : List TrfOutcome) (offset : Nat),
      (0 : Int) ∈ (runWrite regs oracle offset).callbacks →
      (runWrite regs oracle offset).transfers.flatten
        = ((regs.drop offset).filter nonBarrier).flatMap encWrite := by
  intro oracle
  induction oracle with
  | nil =>
    intro offset hm
    by_cases hdone : regs.length ≤ skipZeros regs offset
    · rw [runWrite_done regs _ offset hdone]
      have hnil : regs.drop (skipZeros regs offset) = [] :=
        List.drop_eq_nil_iff.mpr hdone
      have hfil : (regs.drop offset).filter nonBarrier = [] := by
        rw [filter_dropWhile, ← skipZeros_drop, hnil]
        rfl
      rw [hfil]
      rfl
    · rw [runWrite_pending regs offset hdone] at hm
      simp at hm
  | cons oc rest ih =>
    intro offset hm
    by_cases hdone : regs.length ≤ skipZeros regs offset
    · rw [runWrite_done regs _ offset hdone]
      have hnil : regs.drop (skipZeros regs offset) = [] :=
        List.drop_eq_nil_iff.mpr hdone
      have hfil : (regs.drop offset).filter nonBarrier = [] := by
        rw [filter_dropWhile, ← skipZeros_drop, hnil]
        rfl
      rw [hfil]
      rfl
    · have hlt : skipZeros regs offset < regs.length := by omega
      have hnz := skipZeros_nz regs offset hlt
      obtain ⟨w1, w2, w3, w4, w5⟩ := window regs (skipZeros regs offset) hlt hnz
      cases oc with
      | submitFail =>
        rw [runWrite_submitFail regs offset rest hdone] at hm
        rw [List.mem_singleton] at hm
        norm_num [eio] at hm
      | complete f =>
        rw [runWrite_complete regs offset f rest _ _ _ rfl rfl rfl hdone] at hm ⊢
        by_cases hb1 : (f (packLoop regs (skipZeros regs offset)
            (batchUpperBound regs (skipZeros regs offset) + 1
              - skipZeros regs offset)).length).1 = false
        · rw [if_pos hb1] at hm
          dsimp only at hm
          rw [List.mem_singleton] at hm
          norm_num [eio] at hm
        · rw [if_neg hb1] at hm ⊢
          by_cases hb2 : (f (packLoop regs (skipZeros regs offset)
              (batchUpperBound regs (skipZeros regs offset) + 1
                - skipZeros regs offset)).length).2
              ≠ (packLoop regs (skipZeros regs offset)
                (batchUpperBound regs (skipZeros regs offset) + 1
                  - skipZeros regs offset)).length
          · rw [if_pos hb2] at hm
            dsimp only at hm
            rw [List.mem_singleton] at hm
            norm_num [eproto] at hm
          · rw [if_neg hb2] at hm ⊢
            dsimp only at hm ⊢
            rw [List.flatten_cons, ih _ hm]
            rw [packLoop_eq regs _ _ (by omega)]
            rw [step_filter regs offset hlt]
            rw [List.flatMap_append]

/-- A run whose (j+1)-th outcome is a transport failure either finishes
    successfully within j transfers or ends with callback -EIO right after
    submitting its (j+1)-th transfer, with no further submission. -/
theorem transport_fail_run (regs : List RegWrite) (rest : List TrfOutcome) :
    ∀ (j offset : Nat),
      ((runWrite regs (List.replicate j success ++ transportFail :: rest)
          offset).callbacks = [0] ∧
        (runWrite regs (List.replicate j success ++ transportFail :: rest)
          offset).transfers.length ≤ j) ∨
      ((runWrite regs (List.replicate j success ++ transportFail :: rest)
          offset).callbacks = [-eio] ∧
        (runWrite regs (List.replicate j success ++ transportFail :: rest)
          offset).transfers.length = j + 1) := by
  intro j
  induction j with
  | zero =>
    intro offset
    rw [show List.replicate 0 success ++ transportFail :: rest
      = transportFail :: rest from rfl]
    by_cases hdone : regs.length ≤ skipZeros regs offset
    · rw [runWrite_done regs _ offset hdone]
      left
      exact ⟨rfl, by simp⟩
    · rw [show transportFail = TrfOutcome.complete (fun _ => ((false : Bool), 0))
        from rfl]
      rw [runWrite_complete regs offset _ rest _ _ _ rfl rfl rfl hdone]
      rw [if_pos rfl]
      right
      exact ⟨rfl, rfl⟩
  | succ j ih =>
    intro offset
    rw [List.replicate_succ, List.cons_append]
    by_cases hdone : regs.length ≤ skipZeros regs offset
    · rw [runWrite_done regs _ offset hdone]
      left
      exact ⟨rfl, by simp⟩
    · rw [runWrite_success_step regs offset _ _ _ _ rfl rfl rfl hdone]
      dsimp only
      rcases ih (batchUpperBound regs (skipZeros regs offset) + 1)
        with ⟨hcb, hlen⟩ | ⟨hcb, hlen⟩
      · left
        refine ⟨hcb, ?_⟩
        rw [List.length_cons]
        omega
      · right
        refine ⟨hcb, ?_⟩
        rw [List.length_cons]
        omega

/-- A run whose (j+1)-th outcome completes with a wrong actual length
    either finishes successfully within j transfers or ends with callback
    -EPROTO right after its (j+1)-th transfer, with no further
    submission. -/
theorem mismatch_run (regs : List RegWrite) (rest : List TrfOutcome) :
    ∀ (j offset : Nat),
      ((runWrite regs (List.replicate j success ++ mismatch :: rest)
          offset).callbacks = [0] ∧
        (runWrite regs (List.replicate j success ++ mismatch :: rest)
          offset).transfers.length ≤ j) ∨
      ((runWrite regs (List.replicate j success ++ mismatch :: rest)
          offset).callbacks = [-eproto] ∧
        (runWrite regs (List.replicate j success ++ mismatch :: rest)
          offset).transfers.length = j + 1) := by
  intro j
  induction j with
  | zero =>
    intro offset
    rw [show List.replicate 0 success ++ mismatch :: rest = mismatch :: rest
      from rfl]
    by_cases hdone : regs.length ≤ skipZeros regs offset
    · rw [runWrite_done regs _ offset hdone]
      left
      exact ⟨rfl, by simp⟩
    · rw [show mismatch = TrfOutcome.complete (fun L => ((true : Bool), L + 1))
        from rfl]
      rw [runWrite_complete regs offset _ rest _ _ _ rfl rfl rfl hdone]
      rw [if_neg (by simp), if_pos (by omega)]
      right
      exact ⟨rfl, rfl⟩
  | succ j ih =>
    intro offset
    rw [List.replicate_succ, List.cons_append]
    by_cases hdone : regs.length ≤ skipZeros regs offset
    · rw [runWrite_done regs _ offset hdone]
      left
      exact ⟨rfl, by simp⟩
    · rw [runWrite_success_step regs offset _ _ _ _ rfl rfl rfl hdone]
      dsimp only
      rcases ih (batchUpperBound regs (skipZeros regs offset) + 1)
        with ⟨hcb, hlen⟩ | ⟨hcb, hlen⟩
      · left
        refine ⟨hcb, ?_⟩
        rw [List.length_cons]
        omega
      · right
        refine ⟨hcb, ?_⟩
        rw [List.length_cons]
        omega

/-- A run whose (j+1)-th outcome is a submission failure either finishes
    successfully within j transfers or ends with callback -EIO after
    exactly j submitted transfers (the failed submission transmits
    nothing). -/
theorem submit_fail_run (regs : List RegWrite) (rest : List TrfOutcome) :
    ∀ (j offset : Nat),
      ((runWrite regs (List.replicate j success ++ TrfOutcome.submitFail :: rest)
          offset).callbacks = [0] ∧
        (runWrite regs (List.replicate j success ++ TrfOutcome.submitFail :: rest)
          offset).transfers.length ≤ j) ∨
      ((runWrite regs (List.replicate j success ++ TrfOutcome.submitFail :: rest)
          offset).callbacks = [-eio] ∧
        (runWrite regs (List.replicate j success ++ TrfOutcome.submitFail :: rest)
          offset).transfers.length = j) := by
  intro j
  induction j with
  | zero =>
    intro offset
    rw [show List.replicate 0 success ++ TrfOutcome.submitFail :: rest
      = TrfOutcome.submitFail :: rest from rfl]
    by_cases hdone : regs.length ≤ skipZeros regs offset
    · rw [runWrite_done regs _ offset hdone]
      left
      exact ⟨rfl, by simp⟩
    · rw [runWrite_submitFail regs offset rest hdone]
      right
      exact ⟨rfl, rfl⟩
  | succ j ih =>
    intro offset
    rw [List.replicate_succ, List.cons_append]
    by_cases hdone : regs.length ≤ skipZeros regs offset
    · rw [runWrite_done regs _ offset hdone]
      left
      exact ⟨rfl, by simp⟩
    · rw [runWrite_success_step regs offset _ _ _ _ rfl rfl rfl hdone]
      dsimp only
      rcases ih (batchUpperBound regs (skipZeros regs offset) + 1)
        with ⟨hcb, hlen⟩ | ⟨hcb, hlen⟩
      · left
        refine ⟨hcb, ?_⟩
        rw [List.length_cons]
        omega
      · right
        refine ⟨hcb, ?_⟩
        rw [List.length_cons]
        omega

/-- The skip loop does not move when it starts on a non-barrier entry. -/
theorem skipZeros_stop (regs : List RegWrite) (offset : Nat)
    (h : (regs.getD offset rw0).reg ≠ 0) : skipZeros regs offset = offset := by
  unfold skipZeros
  cases hf : regs.length - offset with
  | zero => rfl
  | succ fuel =>
    have hred : skipZerosGo regs (fuel + 1) offset
        = if (regs.getD offset rw0).reg = 0 then skipZerosGo regs fuel (offset + 1)
          else offset := rfl
    rw [hred, if_neg h]

/-- Without barriers, the batch bound is limited only by the remaining
    length and the hardware cap. -/
theorem batchUpperBound_nobarrier (regs : List RegWrite) (off : Nat)
    (hoff : off < regs.length) (hnb : ∀ x ∈ regs, x.reg ≠ 0) :
    batchUpperBound regs off
      = off + min (regs.length - off) MAX_REGWRITES_PER_REQUEST - 1 := by
  have hM : MAX_REGWRITES_PER_REQUEST = 16 := rfl
  have hub0 : off + min (regs.length - off) MAX_REGWRITES_PER_REQUEST - 1
      < regs.length := by
    rw [hM]
    omega
  have htw : (regs.drop off).takeWhile nonBarrier = regs.drop off := by
    rw [List.takeWhile_eq_self_iff]
    intro x hx
    have hxr := hnb x (List.mem_of_mem_drop hx)
    simp only [nonBarrier, bne_iff_ne, ne_eq]
    exact hxr
  unfold batchUpperBound
  rw [findZero_eq regs off _ hub0, htw, List.length_drop]
  rw [if_neg (by rw [hM]; omega)]

/-- Barrier-free success runs submit ceil(remaining / MAX) transfers, all
    but the last packing exactly MAX writes. -/
theorem nobarrier_count (regs : List RegWrite) (hnb : ∀ x ∈ regs, x.reg ≠ 0) :
    ∀ (k offset : Nat), regs.length - offset ≤ k →
      (runWrite regs (List.replicate k success) offset).transfers.length
          = (regs.length - offset + (MAX_REGWRITES_PER_REQUEST - 1))
            / MAX_REGWRITES_PER_REQUEST ∧
      ∀ p ∈ (runWrite regs (List.replicate k success) offset).transfers.dropLast,
        p.length = 2 * MAX_REGWRITES_PER_REQUEST := by
  have hM : MAX_REGWRITES_PER_REQUEST = 16 := rfl
  intro k
  induction k with
  | zero =>
    intro offset h
    have hge := skipZeros_ge regs offset
    rw [runWrite_done regs _ offset (by omega)]
    constructor
    · show (0 : Nat) = _
      rw [hM]
      omega
    · intro p hp
      simp at hp
  | succ k ih =>
    intro offset h
    by_cases hoff : offset < regs.length
    · have hstop : skipZeros regs offset = offset :=
        skipZeros_stop regs offset (hnb _ (getD_mem regs offset rw0 hoff))
      have hdone : ¬ regs.length ≤ skipZeros regs offset := by
        rw [hstop]
        omega
      rw [List.replicate_succ]
      rw [runWrite_success_step regs offset (List.replicate k success) _ _ _
        rfl rfl rfl hdone]
      rw [hstop]
      have hbu := batchUpperBound_nobarrier regs offset hoff hnb
      rw [hbu]
      have h1 : 1 ≤ min (regs.length - offset) MAX_REGWRITES_PER_REQUEST := by
        rw [hM]
        omega
      have he : offset + min (regs.length - offset) MAX_REGWRITES_PER_REQUEST - 1 + 1
          = offset + min (regs.length - offset) MAX_REGWRITES_PER_REQUEST := by
        omega
      rw [he]
      have he2 : offset + min (regs.length - offset) MAX_REGWRITES_PER_REQUEST - offset
          = min (regs.length - offset) MAX_REGWRITES_PER_REQUEST := by
        omega
      rw [he2]
      have hih := ih (offset + min (regs.length - offset) MAX_REGWRITES_PER_REQUEST)
        (by rw [hM] at *; omega)
      dsimp only
      constructor
      · rw [List.length_cons, hih.1, hM] at *
        rw [hM]
        omega
      · by_cases hrec : (runWrite regs (List.replicate k success)
            (offset + min (regs.length - offset) MAX_REGWRITES_PER_REQUEST)).transfers
            = []
        · rw [hrec]
          intro p hp
          simp at hp
        · rw [List.dropLast_cons_of_ne_nil hrec]
          intro p hp
          rw [List.mem_cons] at hp
          rcases hp with hp | hp
          · subst hp
            rw [packLoop_length]
            have hlen1 : 1 ≤ (runWrite regs (List.replicate k success)
                (offset + min (regs.length - offset)
                  MAX_REGWRITES_PER_REQUEST)).transfers.length := by
              rcases Nat.eq_zero_or_pos (runWrite regs (List.replicate k success)
                  (offset + min (regs.length - offset)
                    MAX_REGWRITES_PER_REQUEST)).transfers.length with h0 | h0
              · exact absurd (List.length_eq_zero.mp h0) hrec
              · exact h0
            rw [hih.1, hM] at hlen1
            rw [hM] at *
            omega
          · exact hih.2 p hp
    · have hge := skipZeros_ge regs offset
      rw [runWrite_done regs _ offset (by omega)]
      constructor
      · show (0 : Nat) = _
        rw [hM]
        omega
      · intro p hp
        simp at hp

/-- C2: on an all-success run, the concatenated payloads are exactly the
    non-barrier entries of the sequence, in order, two bytes (reg, value)
    each; every transfer packs one contiguous barrier-free in-bounds window
    (so no transfer spans a barrier), and no barrier register id 0 ever
    appears at a register position of any payload. -/
theorem C2_payload_order (regs : List RegWrite) (k : Nat) (hk : regs.length ≤ k) :
    (aes_write_regv regs (List.replicate k success)).transfers.flatten
        = (regs.filter nonBarrier).flatMap encWrite ∧
    (aes_write_regv regs (List.replicate k success)).callbacks = [0] ∧
    (∀ p ∈ (aes_write_regv regs (List.replicate k success)).transfers,
        ∃ o n, 1 ≤ n ∧ n ≤ MAX_REGWRITES_PER_REQUEST ∧ o + n ≤ regs.length ∧
          p = packLoop regs o n ∧
          ∀ j, o ≤ j → j < o + n → (regs.getD j rw0).reg ≠ 0) ∧
    (∀ p ∈ (aes_write_regv regs (List.replicate k success)).transfers,
        ∀ i, 2 * i < p.length → p.getD (2 * i) 0 ≠ 0) := by
  unfold aes_write_regv
  have hsr := success_run regs k 0 (by omega)
  refine ⟨?_, hsr.2, fun p hp => transfers_shape regs _ 0 p hp, ?_⟩
  · have h1 := hsr.1
    rwa [List.drop_zero] at h1
  · intro p hp i hi
    obtain ⟨o, n, h1, h2, h3, hpk, hbar⟩ := transfers_shape regs _ 0 p hp
    subst hpk
    rw [packLoop_length] at hi
    have hin : i < n := by omega
    rw [packLoop_getD_even regs n o i hin]
    exact hbar (o + i) (by omega) (by omega)

/-- Witness for C2 on [write, barrier, write] with three successes. -/
theorem C2_payload_order_witness :
    (aes_write_regv [⟨1, 2⟩, ⟨0, 0⟩, ⟨3, 4⟩]
        (List.replicate 3 success)).transfers.flatten
      = (([⟨1, 2⟩, ⟨0, 0⟩, ⟨3, 4⟩] : List RegWrite).filter nonBarrier).flatMap
          encWrite ∧
    (aes_write_regv [⟨1, 2⟩, ⟨0, 0⟩, ⟨3, 4⟩]
        (List.replicate 3 success)).callbacks = [0] :=
  ⟨(C2_payload_order [⟨1, 2⟩, ⟨0, 0⟩, ⟨3, 4⟩] 3 (by decide)).1,
   (C2_payload_order [⟨1, 2⟩, ⟨0, 0⟩, ⟨3, 4⟩] 3 (by decide)).2.1⟩

/-- C3: a barrier-free sequence of n writes with 1 <= n <= 16 goes out as
    exactly one transfer holding all n writes in order; for n > 16 the
    all-success run submits ceil(n/16) transfers, all but possibly the last
    packing exactly 16 writes, whose in-order concatenation reproduces the
    sequence. -/
theorem C3_batching (regs : List RegWrite) (k : Nat)
    (hnb : ∀ x ∈ regs, x.reg ≠ 0) (hk : regs.length ≤ k) :
    (1 ≤ regs.length → regs.length ≤ MAX_REGWRITES_PER_REQUEST →
      (aes_write_regv regs (List.replicate k success)).transfers
        = [regs.flatMap encWrite]) ∧
    (MAX_REGWRITES_PER_REQUEST < regs.length →
      (aes_write_regv regs (List.replicate k success)).transfers.length
          = (regs.length + (MAX_REGWRITES_PER_REQUEST - 1))
              / MAX_REGWRITES_PER_REQUEST ∧
      (∀ p ∈ (aes_write_regv regs (List.replicate k success)).transfers.dropLast,
        p.length = 2 * MAX_REGWRITES_PER_REQUEST) ∧
      (aes_write_regv regs (List.replicate k success)).transfers.flatten
        = regs.flatMap encWrite) := by
  have hM : MAX_REGWRITES_PER_REQUEST = 16 := rfl
  unfold aes_write_regv
  have hcount := nobarrier_count regs hnb k 0 (by omega)
  have hsr := success_run regs k 0 (by omega)
  have hfil : regs.filter nonBarrier = regs := by
    apply List.filter_eq_self.mpr
    intro a ha
    simp only [nonBarrier, bne_iff_ne, ne_eq]
    exact hnb a ha
  have hflat : (runWrite regs (List.replicate k success) 0).transfers.flatten
      = regs.flatMap encWrite := by
    have h1 := hsr.1
    rwa [List.drop_zero, hfil] at h1
  constructor
  · intro hge hle
    rw [hM] at hle
    have hone : (runWrite regs (List.replicate k success) 0).transfers.length = 1 := by
      rw [hcount.1, hM]
      omega
    obtain ⟨p, hp⟩ := List.length_eq_one.mp hone
    rw [hp]
    rw [hp] at hflat
    have hpe : p = regs.flatMap encWrite := by
      rw [← hflat]
      simp
    rw [hpe]
  · intro _hgt
    refine ⟨?_, hcount.2, hflat⟩
    rw [hcount.1]
    norm_num

/-- Witness for C3: one write goes out as one transfer; 20 barrier-free
    writes go out as ceil(20/16) = 2 transfers. -/
theorem C3_batching_witness :
    (aes_write_regv [(⟨5, 6⟩ : RegWrite)] (List.replicate 1 success)).transfers
        = [([(⟨5, 6⟩ : RegWrite)]).flatMap encWrite] ∧
    (aes_write_regv (List.replicate 20 (⟨1, 2⟩ : RegWrite))
        (List.replicate 20 success)).transfers.length
      = ((List.replicate 20 (⟨1, 2⟩ : RegWrite)).length
          + (MAX_REGWRITES_PER_REQUEST - 1)) / MAX_REGWRITES_PER_REQUEST :=
  ⟨(C3_batching [⟨5, 6⟩] 1 (by decide) (by decide)).1 (by decide) (by decide),
   ((C3_batching (List.replicate 20 ⟨1, 2⟩) 20 (by decide) (by decide)).2
      (by decide)).1⟩

/-- C4: a transport failure on a completion yields callback -EIO, a length
    mismatch yields -EPROTO, a submission failure yields -EIO (with no
    transfer submitted for it), in each case with no further submissions
    after the failure; and a status-0 callback happens only when every
    non-barrier write was packed into a successfully completed transfer. -/
theorem C4_error_reporting :
    (∀ (regs : List RegWrite) (j : Nat) (rest : List TrfOutcome),
      ((aes_write_regv regs
          (List.replicate j success ++ transportFail :: rest)).callbacks = [0] ∧
        (aes_write_regv regs
          (List.replicate j success ++ transportFail :: rest)).transfers.length
            ≤ j) ∨
      ((aes_write_regv regs
          (List.replicate j success ++ transportFail :: rest)).callbacks
            = [-eio] ∧
        (aes_write_regv regs
          (List.replicate j success ++ transportFail :: rest)).transfers.length
            = j + 1)) ∧
    (∀ (regs : List RegWrite) (j : Nat) (rest : List TrfOutcome),
      ((aes_write_regv regs
          (List.replicate j success ++ mismatch :: rest)).callbacks = [0] ∧
        (aes_write_regv regs
          (List.replicate j success ++ mismatch :: rest)).transfers.length ≤ j) ∨
      ((aes_write_regv regs
          (List.replicate j success ++ mismatch :: rest)).callbacks = [-eproto] ∧
        (aes_write_regv regs
          (List.replicate j success ++ mismatch :: rest)).transfers.length
            = j + 1)) ∧
    (∀ (regs : List RegWrite) (j : Nat) (rest : List TrfOutcome),
      ((aes_write_regv regs
          (List.replicate j success
            ++ TrfOutcome.submitFail :: rest)).callbacks = [0] ∧
        (aes_write_regv regs
          (List.replicate j success
            ++ TrfOutcome.submitFail :: rest)).transfers.length ≤ j) ∨
      ((aes_write_regv regs
          (List.replicate j success
            ++ TrfOutcome.submitFail :: rest)).callbacks = [-eio] ∧
        (aes_write_regv regs
          (List.replicate j success
            ++ TrfOutcome.submitFail :: rest)).transfers.length = j)) ∧
    (∀ (regs : List RegWrite) (oracle : List TrfOutcome),
      (0 : Int) ∈ (aes_write_regv regs oracle).callbacks →
      (aes_write_regv regs oracle).transfers.flatten
        = (regs.filter nonBarrier).flatMap encWrite) := by
  refine ⟨fun regs j rest => transport_fail_run regs rest j 0,
    fun regs j rest => mismatch_run regs rest j 0,
    fun regs j rest => submit_fail_run regs rest j 0,
    fun regs oracle hm => ?_⟩
  have h1 := zero_callback regs oracle 0 hm
  rwa [List.drop_zero] at h1

/-- Witness for C4 on a one-write sequence with each failure mode first,
    and the status-0 characterization on a successful run. -/
theorem C4_error_reporting_witness :
    (((aes_write_regv [⟨1, 2⟩]
        (List.replicate 0 success ++ transportFail :: [])).callbacks = [0] ∧
      (aes_write_regv [⟨1, 2⟩]
        (List.replicate 0 success ++ transportFail :: [])).transfers.length ≤ 0) ∨
     ((aes_write_regv [⟨1, 2⟩]
        (List.replicate 0 success ++ transportFail :: [])).callbacks = [-eio] ∧
      (aes_write_regv [⟨1, 2⟩]
        (List.replicate 0 success ++ transportFail :: [])).transfers.length
          = 0 + 1)) ∧
    (((aes_write_regv [⟨1, 2⟩]
        (List.replicate 0 success ++ mismatch :: [])).callbacks = [0] ∧
      (aes_write_regv [⟨1, 2⟩]
        (List.replicate 0 success ++ mismatch :: [])).transfers.length ≤ 0) ∨
     ((aes_write_regv [⟨1, 2⟩]
        (List.replicate 0 success ++ mismatch :: [])).callbacks = [-eproto] ∧
      (aes_write_regv [⟨1, 2⟩]
        (List.replicate 0 success ++ mismatch :: [])).transfers.length = 0 + 1)) ∧
    (((aes_write_regv [⟨1, 2⟩]
        (List.replicate 0 success
          ++ TrfOutcome.submitFail :: [])).callbacks = [0] ∧
      (aes_write_regv [⟨1, 2⟩]
        (List.replicate 0 success
          ++ TrfOutcome.submitFail :: [])).transfers.length ≤ 0) ∨
     ((aes_write_regv [⟨1, 2⟩]
        (List.replicate 0 success
          ++ TrfOutcome.submitFail :: [])).callbacks = [-eio] ∧
      (aes_write_regv [⟨1, 2⟩]
        (List.replicate 0 success
          ++ TrfOutcome.submitFail :: [])).transfers.length = 0)) ∧
    (aes_write_regv [⟨1, 2⟩] [success]).transfers.flatten
      = (([⟨1, 2⟩] : List RegWrite).filter nonBarrier).flatMap encWrite :=
  ⟨C4_error_reporting.1 [⟨1, 2⟩] 0 [],
   C4_error_reporting.2.1 [⟨1, 2⟩] 0 [],
   C4_error_reporting.2.2.1 [⟨1, 2⟩] 0 [],
   C4_error_reporting.2.2.2 [⟨1, 2⟩] [success] (by decide)⟩

/-- C5: every value ever stored into the session cursor is between 0 and
    num_regs, and every submitted transfer packs between 1 and 16 writes
    from a contiguous barrier-free in-bounds window of the sequence. -/
theorem C5_cursor_invariant (regs : List RegWrite) (oracle : List TrfOutcome) :
    (∀ o ∈ (aes_write_regv regs oracle).offsets, o ≤ regs.length) ∧
    (∀ p ∈ (aes_write_regv regs oracle).transfers,
      ∃ o n, 1 ≤ n ∧ n ≤ MAX_REGWRITES_PER_REQUEST ∧ o + n ≤ regs.length ∧
        p = packLoop regs o n ∧
        ∀ j, o ≤ j → j < o + n → (regs.getD j rw0).reg ≠ 0) :=
  ⟨fun o ho => offsets_bounded regs oracle 0 o ho,
   fun p hp => transfers_shape regs oracle 0 p hp⟩

/-- Witness for C5: the final cursor value 3 is within bounds and the
    first payload [1, 2] is a packed barrier-free window. -/
theorem C5_cursor_invariant_witness :
    (3 : Nat) ≤ ([⟨1, 2⟩, ⟨0, 0⟩, ⟨3, 4⟩] : List RegWrite).length ∧
    (∃ o n, 1 ≤ n ∧ n ≤ MAX_REGWRITES_PER_REQUEST ∧
      o + n ≤ ([⟨1, 2⟩, ⟨0, 0⟩, ⟨3, 4⟩] : List RegWrite).length ∧
      ([1, 2] : List Nat) = packLoop [⟨1, 2⟩, ⟨0, 0⟩, ⟨3, 4⟩] o n ∧
      ∀ j, o ≤ j → j < o + n →
        (([⟨1, 2⟩, ⟨0, 0⟩, ⟨3, 4⟩] : List RegWrite).getD j rw0).reg ≠ 0) :=
  ⟨(C5_cursor_invariant [⟨1, 2⟩, ⟨0, 0⟩, ⟨3, 4⟩] (List.replicate 3 success)).1 3
      (by decide),
   (C5_cursor_invariant [⟨1, 2⟩, ⟨0, 0⟩, ⟨3, 4⟩] (List.replicate 3 success)).2
      [1, 2] (by decide)⟩

/-- C6: the completion callback fires at most once on any run, and exactly
    once whenever the environment supplies an outcome for every transfer
    the sequence could need (one per entry suffices). -/
theorem C6_callback_exactly_once (regs : List RegWrite) (oracle : List TrfOutcome) :
    (aes_write_regv regs oracle).callbacks.length ≤ 1 ∧
    (regs.length ≤ oracle.length →
      (aes_write_regv regs oracle).callbacks.length = 1) :=
  ⟨callbacks_le_one regs oracle 0,
   fun h => callbacks_eq_one regs oracle 0 (by omega)⟩

/-- Witness for C6 on a three-entry sequence with three successes. -/
theorem C6_callback_exactly_once_witness :
    (aes_write_regv [⟨1, 2⟩, ⟨0, 0⟩, ⟨3, 4⟩]
        (List.replicate 3 success)).callbacks.length ≤ 1 ∧
    (aes_write_regv [⟨1, 2⟩, ⟨0, 0⟩, ⟨3, 4⟩]
        (List.replicate 3 success)).callbacks.length = 1 :=
  ⟨(C6_callback_exactly_once [⟨1, 2⟩, ⟨0, 0⟩, ⟨3, 4⟩]
      (List.replicate 3 success)).1,
   (C6_callback_exactly_once [⟨1, 2⟩, ⟨0, 0⟩, ⟨3, 4⟩]
      (List.replicate 3 success)).2 (by decide)⟩

/-- C8: an empty sequence invokes the callback exactly once with status 0
    and submits no transfer, whatever the environment would have done. -/
theorem C8_empty_sequence (oracle : List TrfOutcome) :
    (aes_write_regv [] oracle).transfers = [] ∧
    (aes_write_regv [] oracle).callbacks = [0] := by
  unfold aes_write_regv
  rw [runWrite_done [] oracle 0 (by decide)]
  exact ⟨rfl, rfl⟩

/-- Witness for C8 at a concrete environment. -/
theorem C8_empty_sequence_witness :
    (aes_write_regv [] [success]).transfers = [] ∧
    (aes_write_regv [] [success]).callbacks = [0] :=
  C8_empty_sequence [success]

/-- Reading past a prefix reads the suffix. -/
theorem getD_shift (ws regs : List RegWrite) (n : Nat) (d : RegWrite) :
    (ws ++ regs).getD (ws.length + n) d = regs.getD n d := by
  rw [List.getD_append_right ws regs d _ (by omega)]
  congr 1
  omega

/-- The skip loop commutes with shifting past a prefix. -/
theorem skipZerosGo_shift (ws regs : List RegWrite) :
    ∀ fuel offset, skipZerosGo (ws ++ regs) fuel (ws.length + offset)
      = ws.length + skipZerosGo regs fuel offset := by
  intro fuel
  induction fuel with
  | zero => intro offset; rfl
  | succ fuel ih =>
    intro offset
    have hred1 : skipZerosGo (ws ++ regs) (fuel + 1) (ws.length + offset)
        = if ((ws ++ regs).getD (ws.length + offset) rw0).reg = 0
          then skipZerosGo (ws ++ regs) fuel (ws.length + offset + 1)
          else ws.length + offset := rfl
    have hred2 : skipZerosGo regs (fuel + 1) offset
        = if (regs.getD offset rw0).reg = 0 then skipZerosGo regs fuel (offset + 1)
          else offset := rfl
    rw [hred1, hred2, getD_shift]
    by_cases hz : (regs.getD offset rw0).reg = 0
    · rw [if_pos hz, if_pos hz]
      have ha : ws.length + offset + 1 = ws.length + (offset + 1) := by omega
      rw [ha, ih]
    · rw [if_neg hz, if_neg hz]

/-- skipZeros commutes with shifting past a prefix. -/
theorem skipZeros_shift (ws regs : List RegWrite) (offset : Nat) :
    skipZeros (ws ++ regs) (ws.length + offset)
      = ws.length + skipZeros regs offset := by
  unfold skipZeros
  have h1 : (ws ++ regs).length - (ws.length + offset) = regs.length - offset := by
    rw [List.length_append]
    omega
  rw [h1, skipZerosGo_shift]

/-- The packing loop commutes with shifting past a prefix. -/
theorem packLoop_shift (ws regs : List RegWrite) :
    ∀ (num i : Nat), i + num ≤ regs.length →
      packLoop (ws ++ regs) (ws.length + i) num = packLoop regs i num := by
  intro num
  induction num with
  | zero => intro i h; rfl
  | succ num ih =>
    intro i h
    have hred1 : packLoop (ws ++ regs) (ws.length + i) (num + 1)
        = ((ws ++ regs).getD (ws.length + i) rw0).reg
          :: ((ws ++ regs).getD (ws.length + i) rw0).value
          :: packLoop (ws ++ regs) (ws.length + i + 1) num := rfl
    have hred2 : packLoop regs i (num + 1)
        = (regs.getD i rw0).reg :: (regs.getD i rw0).value
          :: packLoop regs (i + 1) num := rfl
    rw [hred1, hred2, getD_shift ws regs i rw0]
    have ha : ws.length + i + 1 = ws.length + (i + 1) := by omega
    rw [ha, ih (i + 1) (by omega)]

/-- The batch bound commutes with shifting past a prefix, as long as the
    cursor sits on a non-barrier entry of the suffix. -/
theorem batchUpperBound_shift (ws regs : List RegWrite) (off : Nat)
    (hoff : off < regs.length) (hnz : (regs.getD off rw0).reg ≠ 0) :
    batchUpperBound (ws ++ regs) (ws.length + off)
      = ws.length + batchUpperBound regs off := by
  have hM : MAX_REGWRITES_PER_REQUEST = 16 := rfl
  have hlen : (ws ++ regs).length = ws.length + regs.length :=
    List.length_append ws regs
  have hmin : (ws ++ regs).length - (ws.length + off) = regs.length - off := by
    rw [hlen]
    omega
  have hmin1 : 1 ≤ min (regs.length - off) MAX_REGWRITES_PER_REQUEST := by
    rw [hM]
    omega
  have hub0 : off + min (regs.length - off) MAX_REGWRITES_PER_REQUEST - 1
      < regs.length := by
    rw [hM]
    omega
  have hub0' : ws.length + off
      + min (regs.length - off) MAX_REGWRITES_PER_REQUEST - 1
      < (ws ++ regs).length := by
    rw [hlen, hM]
    omega
  have hd := drop_getD_cons regs off rw0 hoff
  have hnb : nonBarrier (regs.getD off rw0) = true := by
    simp only [nonBarrier, bne_iff_ne, ne_eq]
    exact hnz
  have hT1 : 1 ≤ ((regs.drop off).takeWhile nonBarrier).length := by
    rw [hd, List.takeWhile_cons, if_pos hnb]
    simp
  unfold batchUpperBound
  rw [hmin]
  rw [findZero_eq regs off _ hub0, findZero_eq (ws ++ regs) (ws.length + off) _ hub0']
  rw [List.drop_append]
  by_cases hc : off + ((regs.drop off).takeWhile nonBarrier).length
      ≤ off + min (regs.length - off) MAX_REGWRITES_PER_REQUEST - 1
  · rw [if_pos hc, if_pos (by omega)]
    dsimp only
    omega
  · rw [if_neg hc, if_neg (by omega)]
    dsimp only
    omega

/-- The loop depends on its starting cursor only through the skip loop's
    result. -/
theorem runWrite_congr (regs : List RegWrite) (oracle : List TrfOutcome)
    (o1 o2 : Nat) (h : skipZeros regs o1 = skipZeros regs o2) :
    runWrite regs oracle o1 = runWrite regs oracle o2 := by
  rw [runWrite_eq regs oracle o1, runWrite_eq regs oracle o2]
  simp only [runWriteBody]
  rw [h]

/-- Running the writer on ws ++ regs from a cursor just past ws submits
    the same transfers and callbacks as running it on regs alone. -/
theorem runWrite_shift (ws regs : List RegWrite) :
    ∀ (oracle : List TrfOutcome) (offset : Nat),
      (runWrite (ws ++ regs) oracle (ws.length + offset)).transfers
          = (runWrite regs oracle offset).transfers ∧
      (runWrite (ws ++ regs) oracle (ws.length + offset)).callbacks
          = (runWrite regs oracle offset).callbacks := by
  intro oracle
  induction oracle with
  | nil =>
    intro offset
    by_cases hdone : regs.length ≤ skipZeros regs offset
    · have hdone' : (ws ++ regs).length
          ≤ skipZeros (ws ++ regs) (ws.length + offset) := by
        rw [skipZeros_shift, List.length_append]
        omega
      rw [runWrite_done _ _ _ hdone', runWrite_done _ _ _ hdone]
      exact ⟨rfl, rfl⟩
    · have hdone' : ¬ (ws ++ regs).length
          ≤ skipZeros (ws ++ regs) (ws.length + offset) := by
        rw [skipZeros_shift, List.length_append]
        omega
      rw [runWrite_pending _ _ hdone', runWrite_pending _ _ hdone]
      exact ⟨rfl, rfl⟩
  | cons oc rest ih =>
    intro offset
    by_cases hdone : regs.length ≤ skipZeros regs offset
    · have hdone' : (ws ++ regs).length
          ≤ skipZeros (ws ++ regs) (ws.length + offset) := by
        rw [skipZeros_shift, List.length_append]
        omega
      rw [runWrite_done _ _ _ hdone', runWrite_done _ _ _ hdone]
      exact ⟨rfl, rfl⟩
    · have hlt : skipZeros regs offset < regs.length := by omega
      have hnz := skipZeros_nz regs offset hlt
      obtain ⟨w1, w2, w3, w4, w5⟩ :=
        window regs (skipZeros regs offset) hlt hnz
      have hdone' : ¬ (ws ++ regs).length
          ≤ skipZeros (ws ++ regs) (ws.length + offset) := by
        rw [skipZeros_shift, List.length_append]
        omega
      have hsh := skipZeros_shift ws regs offset
      have hbu := batchUpperBound_shift ws regs (skipZeros regs offset) hlt hnz
      have hnum : ws.length + batchUpperBound regs (skipZeros regs offset) + 1
          - (ws.length + skipZeros regs offset)
          = batchUpperBound regs (skipZeros regs offset) + 1
            - skipZeros regs offset := by
        omega
      have hpay : packLoop regs (skipZeros regs offset)
          (batchUpperBound regs (skipZeros regs offset) + 1
            - skipZeros regs offset)
          = packLoop (ws ++ regs) (ws.length + skipZeros regs offset)
              (ws.length + batchUpperBound regs (skipZeros regs offset) + 1
                - (ws.length + skipZeros regs offset)) := by
        rw [hnum]
        exact (packLoop_shift ws regs _ _ (by omega)).symm
      cases oc with
      | submitFail =>
        rw [runWrite_submitFail _ _ rest hdone', runWrite_submitFail _ _ rest hdone]
        exact ⟨rfl, rfl⟩
      | complete f =>
        rw [runWrite_complete (ws ++ regs) (ws.length + offset) f rest
          (ws.length + skipZeros regs offset)
          (ws.length + batchUpperBound regs (skipZeros regs offset))
          (packLoop regs (skipZeros regs offset)
            (batchUpperBound regs (skipZeros regs offset) + 1
              - skipZeros regs offset))
          hsh.symm hbu.symm hpay
          (by rw [List.length_append]; omega)]
        rw [runWrite_complete regs offset f rest _ _ _ rfl rfl rfl hdone]
        by_cases hb1 : (f (packLoop regs (skipZeros regs offset)
            (batchUpperBound regs (skipZeros regs offset) + 1
              - skipZeros regs offset)).length).1 = false
        · rw [if_pos hb1, if_pos hb1]
          exact ⟨rfl, rfl⟩
        · rw [if_neg hb1, if_neg hb1]
          by_cases hb2 : (f (packLoop regs (skipZeros regs offset)
              (batchUpperBound regs (skipZeros regs offset) + 1
                - skipZeros regs offset)).length).2
              ≠ (packLoop regs (skipZeros regs offset)
                (batchUpperBound regs (skipZeros regs offset) + 1
                  - skipZeros regs offset)).length
          · rw [if_pos hb2, if_pos hb2]
            exact ⟨rfl, rfl⟩
          · rw [if_neg hb2, if_neg hb2]
            dsimp only
            have ha : ws.length + batchUpperBound regs (skipZeros regs offset) + 1
                = ws.length
                  + (batchUpperBound regs (skipZeros regs offset) + 1) := by
              omega
            rw [ha]
            have hrec := ih (batchUpperBound regs (skipZeros regs offset) + 1)
            exact ⟨by rw [hrec.1], hrec.2⟩

/-- The skip loop advances by at most its fuel. -/
theorem skipZerosGo_le_add (regs : List RegWrite) :
    ∀ fuel offset, skipZerosGo regs fuel offset ≤ offset + fuel := by
  intro fuel
  induction fuel with
  | zero => intro offset; exact Nat.le_refl _
  | succ fuel ih =>
    intro offset
    have hred : skipZerosGo regs (fuel + 1) offset
        = if (regs.getD offset rw0).reg = 0 then skipZerosGo regs fuel (offset + 1)
          else offset := rfl
    rw [hred]
    by_cases hz : (regs.getD offset rw0).reg = 0
    · rw [if_pos hz]
      have := ih (offset + 1)
      omega
    · rw [if_neg hz]
      omega

/-- skipZeros never leaves the sequence when started inside it. -/
theorem skipZeros_le (regs : List RegWrite) (offset : Nat)
    (h : offset ≤ regs.length) : skipZeros regs offset ≤ regs.length := by
  unfold skipZeros
  have := skipZerosGo_le_add regs (regs.length - offset) offset
  omega

/-- An all-barrier list has an empty non-barrier prefix. -/
theorem takeWhile_zs_nil (zs : List RegWrite) (hz : ∀ x ∈ zs, x.reg = 0) :
    zs.takeWhile nonBarrier = [] := by
  cases zs with
  | nil => rfl
  | cons a t =>
    have ha : nonBarrier a = false := by
      simp only [nonBarrier]
      rw [hz a (List.mem_cons_self a t)]
      rfl
    rw [List.takeWhile_cons, ha]
    rfl

/-- An all-barrier list is entirely skipped by dropWhile. -/
theorem dropWhile_zs_nil (zs : List RegWrite) (hz : ∀ x ∈ zs, x.reg = 0) :
    zs.dropWhile isBarrier = [] := by
  rw [List.dropWhile_eq_nil_iff]
  intro x hx
  simp only [isBarrier, beq_iff_eq]
  exact hz x hx

/-- Appending barriers does not move a skip that stops inside the
    sequence. -/
theorem skipZeros_suffix_lt (regs zs : List RegWrite) (offset : Nat)
    (_hz : ∀ x ∈ zs, x.reg = 0) (hlt : skipZeros regs offset < regs.length) :
    skipZeros (regs ++ zs) offset = skipZeros regs offset := by
  have hge := skipZeros_ge regs offset
  have hoffle : offset ≤ regs.length := by omega
  have hd0 := skipZeros_drop (regs ++ zs) offset
  rw [List.drop_append_of_le_length hoffle] at hd0
  have hdw : (regs.drop offset).dropWhile isBarrier
      = regs.drop (skipZeros regs offset) := (skipZeros_drop regs offset).symm
  have hne : regs.drop (skipZeros regs offset) ≠ [] := by
    rw [Ne, List.drop_eq_nil_iff]
    omega
  have hdwa : (regs.drop offset ++ zs).dropWhile isBarrier
      = regs.drop (skipZeros regs offset) ++ zs := by
    rw [List.dropWhile_append, hdw]
    rw [if_neg (by simp only [List.isEmpty_iff]; exact hne)]
  rw [hdwa] at hd0
  have hle1 : skipZeros (regs ++ zs) offset ≤ (regs ++ zs).length :=
    skipZeros_le _ _ (by rw [List.length_append]; omega)
  have hlen := congrArg List.length hd0
  rw [List.length_drop, List.length_append, List.length_append,
    List.length_drop] at hlen
  omega

/-- If the plain run is complete, the barrier-padded run is complete. -/
theorem skipZeros_suffix_done (regs zs : List RegWrite) (offset : Nat)
    (hz : ∀ x ∈ zs, x.reg = 0) (hoffle : offset ≤ regs.length)
    (hdone : regs.length ≤ skipZeros regs offset) :
    (regs ++ zs).length ≤ skipZeros (regs ++ zs) offset := by
  have hd0 := skipZeros_drop (regs ++ zs) offset
  rw [List.drop_append_of_le_length hoffle] at hd0
  have hdw : (regs.drop offset).dropWhile isBarrier = [] := by
    rw [← skipZeros_drop regs offset]
    exact List.drop_eq_nil_iff.mpr hdone
  have hall := List.dropWhile_eq_nil_iff.mp hdw
  have hnil : (regs.drop offset ++ zs).dropWhile isBarrier = [] := by
    rw [List.dropWhile_eq_nil_iff]
    intro x hx
    rcases List.mem_append.mp hx with h | h
    · exact hall x h
    · simp only [isBarrier, beq_iff_eq]
      exact hz x h
  rw [hnil] at hd0
  exact List.drop_eq_nil_iff.mp hd0

/-- Appending barriers does not change the length of the leading
    non-barrier run at any cursor inside the sequence. -/
theorem takeWhile_suffix_len (regs zs : List RegWrite) (off : Nat)
    (hoffle : off ≤ regs.length) (hz : ∀ x ∈ zs, x.reg = 0) :
    (((regs ++ zs).drop off).takeWhile nonBarrier).length
      = ((regs.drop off).takeWhile nonBarrier).length := by
  rw [List.drop_append_of_le_length hoffle, List.takeWhile_append,
    takeWhile_zs_nil zs hz]
  by_cases hcase : ((regs.drop off).takeWhile nonBarrier).length
      = (regs.drop off).length
  · rw [if_pos hcase, List.length_append]
    simp only [List.length_nil]
    omega
  · rw [if_neg hcase]

/-- Appending barriers does not change the batch bound at a non-barrier
    cursor: a first appended barrier acts exactly like the end of the
    sequence. -/
theorem batchUpperBound_suffix (regs zs : List RegWrite) (off : Nat)
    (hoff : off < regs.length) (hnz : (regs.getD off rw0).reg ≠ 0)
    (hz : ∀ x ∈ zs, x.reg = 0) :
    batchUpperBound (regs ++ zs) off = batchUpperBound regs off := by
  have hM : MAX_REGWRITES_PER_REQUEST = 16 := rfl
  have hlen : (regs ++ zs).length = regs.length + zs.length :=
    List.length_append regs zs
  have hub0 : off + min (regs.length - off) MAX_REGWRITES_PER_REQUEST - 1
      < regs.length := by
    rw [hM]
    omega
  have hub0' : off + min ((regs ++ zs).length - off) MAX_REGWRITES_PER_REQUEST - 1
      < (regs ++ zs).length := by
    rw [hlen, hM]
    omega
  have hT := takeWhile_suffix_len regs zs off (Nat.le_of_lt hoff) hz
  have hTle : ((regs.drop off).takeWhile nonBarrier).length
      ≤ regs.length - off := by
    have h1 := takeWhile_length_le nonBarrier (regs.drop off)
    rwa [List.length_drop] at h1
  have hd := drop_getD_cons regs off rw0 hoff
  have hnb : nonBarrier (regs.getD off rw0) = true := by
    simp only [nonBarrier, bne_iff_ne, ne_eq]
    exact hnz
  have hT1 : 1 ≤ ((regs.drop off).takeWhile nonBarrier).length := by
    rw [hd, List.takeWhile_cons, if_pos hnb]
    simp
  unfold batchUpperBound
  rw [findZero_eq (regs ++ zs) off _ hub0', findZero_eq regs off _ hub0, hT, hlen]
  by_cases hc1 : off + ((regs.drop off).takeWhile nonBarrier).length
      ≤ off + min (regs.length - off) MAX_REGWRITES_PER_REQUEST - 1
  · rw [if_pos hc1, if_pos (by rw [hM] at hc1 ⊢; omega)]
  · rw [if_neg hc1]
    by_cases hc2 : off + ((regs.drop off).takeWhile nonBarrier).length
        ≤ off + min (regs.length + zs.length - off) MAX_REGWRITES_PER_REQUEST - 1
    · rw [if_pos hc2]
      dsimp only
      rw [hM] at *
      omega
    · rw [if_neg hc2]
      dsimp only
      rw [hM] at *
      omega

/-- The packing loop never reads the appended barriers when the batch lies
    inside the sequence. -/
theorem packLoop_suffix (regs zs : List RegWrite) :
    ∀ (num i : Nat), i + num ≤ regs.length →
      packLoop (regs ++ zs) i num = packLoop regs i num := by
  intro num
  induction num with
  | zero => intro i h; rfl
  | succ num ih =>
    intro i h
    have hred1 : packLoop (regs ++ zs) i (num + 1)
        = ((regs ++ zs).getD i rw0).reg :: ((regs ++ zs).getD i rw0).value
          :: packLoop (regs ++ zs) (i + 1) num := rfl
    have hred2 : packLoop regs i (num + 1)
        = (regs.getD i rw0).reg :: (regs.getD i rw0).value
          :: packLoop regs (i + 1) num := rfl
    rw [hred1, hred2, List.getD_append regs zs rw0 i (by omega),
      ih (i + 1) (by omega)]

/-- Running the writer on regs ++ zs for all-barrier zs submits the same
    transfers and callbacks as running it on regs alone. -/
theorem runWrite_suffix (regs zs : List RegWrite) (hz : ∀ x ∈ zs, x.reg = 0) :
    ∀ (oracle : List TrfOutcome) (offset : Nat), offset ≤ regs.length →
      (runWrite (regs ++ zs) oracle offset).transfers
          = (runWrite regs oracle offset).transfers ∧
      (runWrite (regs ++ zs) oracle offset).callbacks
          = (runWrite regs oracle offset).callbacks := by
  intro oracle
  induction oracle with
  | nil =>
    intro offset hoffle
    by_cases hdone : regs.length ≤ skipZeros regs offset
    · rw [runWrite_done _ _ _ (skipZeros_suffix_done regs zs offset hz hoffle hdone),
        runWrite_done _ _ _ hdone]
      exact ⟨rfl, rfl⟩
    · have hlt : skipZeros regs offset < regs.length := by omega
      have hsfx := skipZeros_suffix_lt regs zs offset hz hlt
      have hdone' : ¬ (regs ++ zs).length ≤ skipZeros (regs ++ zs) offset := by
        rw [hsfx, List.length_append]
        omega
      rw [runWrite_pending _ _ hdone', runWrite_pending _ _ hdone]
      exact ⟨rfl, rfl⟩
  | cons oc rest ih =>
    intro offset hoffle
    by_cases hdone : regs.length ≤ skipZeros regs offset
    · rw [runWrite_done _ _ _ (skipZeros_suffix_done regs zs offset hz hoffle hdone),
        runWrite_done _ _ _ hdone]
      exact ⟨rfl, rfl⟩
    · have hlt : skipZeros regs offset < regs.length := by omega
      have hnz := skipZeros_nz regs offset hlt
      obtain ⟨w1, w2, w3, w4, w5⟩ :=
        window regs (skipZeros regs offset) hlt hnz
      have hsfx := skipZeros_suffix_lt regs zs offset hz hlt
      have hdone' : ¬ (regs ++ zs).length ≤ skipZeros (regs ++ zs) offset := by
        rw [hsfx, List.length_append]
        omega
      have hbu := batchUpperBound_suffix regs zs (skipZeros regs offset) hlt hnz hz
      have hpay : packLoop regs (skipZeros regs offset)
          (batchUpperBound regs (skipZeros regs offset) + 1
            - skipZeros regs offset)
          = packLoop (regs ++ zs) (skipZeros regs offset)
              (batchUpperBound regs (skipZeros regs offset) + 1
                - skipZeros regs offset) :=
        (packLoop_suffix regs zs _ _ (by omega)).symm
      cases oc with
      | submitFail =>
        rw [runWrite_submitFail _ _ rest hdone', runWrite_submitFail _ _ rest hdone]
        exact ⟨rfl, rfl⟩
      | complete f =>
        rw [runWrite_complete (regs ++ zs) offset f rest
          (skipZeros regs offset)
          (batchUpperBound regs (skipZeros regs offset))
          (packLoop regs (skipZeros regs offset)
            (batchUpperBound regs (skipZeros regs offset) + 1
              - skipZeros regs offset))
          hsfx.symm hbu.symm hpay (by rw [List.length_append]; omega)]
        rw [runWrite_complete regs offset f rest _ _ _ rfl rfl rfl hdone]
        by_cases hb1 : (f (packLoop regs (skipZeros regs offset)
            (batchUpperBound regs (skipZeros regs offset) + 1
              - skipZeros regs offset)).length).1 = false
        · rw [if_pos hb1, if_pos hb1]
          exact ⟨rfl, rfl⟩
        · rw [if_neg hb1, if_neg hb1]
          by_cases hb2 : (f (packLoop regs (skipZeros regs offset)
              (batchUpperBound regs (skipZeros regs offset) + 1
                - skipZeros regs offset)).length).2
              ≠ (packLoop regs (skipZeros regs offset)
                (batchUpperBound regs (skipZeros regs offset) + 1
                  - skipZeros regs offset)).length
          · rw [if_pos hb2, if_pos hb2]
            exact ⟨rfl, rfl⟩
          · rw [if_neg hb2, if_neg hb2]
            dsimp only
            have hrec := ih (batchUpperBound regs (skipZeros regs offset) + 1)
              (by omega)
            exact ⟨by rw [hrec.1], hrec.2⟩

/-- A leading all-barrier run is skipped: the skip from cursor 0 lands
    where the skip from just past the barriers lands. -/
theorem skipZeros_prepend (ws regs : List RegWrite)
    (hz : ∀ x ∈ ws, x.reg = 0) :
    skipZeros (ws ++ regs) 0 = skipZeros (ws ++ regs) (ws.length + 0) := by
  have h2 : skipZeros (ws ++ regs) (ws.length + 0)
      = ws.length + skipZeros regs 0 := skipZeros_shift ws regs 0
  have hd0 := skipZeros_drop (ws ++ regs) 0
  rw [List.drop_zero] at hd0
  have hwsnil : ws.dropWhile isBarrier = [] := dropWhile_zs_nil ws hz
  have hdwa : (ws ++ regs).dropWhile isBarrier = regs.dropWhile isBarrier := by
    rw [List.dropWhile_append, if_pos (by rw [hwsnil]; rfl)]
  have hdreg := skipZeros_drop regs 0
  rw [List.drop_zero] at hdreg
  rw [hdwa, ← hdreg] at hd0
  have hle1 : skipZeros (ws ++ regs) 0 ≤ (ws ++ regs).length :=
    skipZeros_le _ _ (Nat.zero_le _)
  rw [List.length_append] at hle1
  have hle2 : skipZeros regs 0 ≤ regs.length :=
    skipZeros_le _ _ (Nat.zero_le _)
  have hlen := congrArg List.length hd0
  rw [List.length_drop, List.length_drop, List.length_append] at hlen
  rw [h2]
  omega

/-- C9: a non-empty all-barrier sequence invokes the callback once with
    status 0 and submits no transfer; likewise, a leading or trailing run
    of barriers adds no transfer of its own — prepending or appending
    barriers leaves every run's transfers and callbacks unchanged. -/
theorem C9_all_barrier_sequence (regs : List RegWrite) (oracle : List TrfOutcome)
    (_hne : regs ≠ []) (hb : ∀ x ∈ regs, x.reg = 0) :
    ((aes_write_regv regs oracle).transfers = [] ∧
     (aes_write_regv regs oracle).callbacks = [0]) ∧
    (∀ (ws rs : List RegWrite) (orc : List TrfOutcome),
      (∀ x ∈ ws, x.reg = 0) →
      (aes_write_regv (ws ++ rs) orc).transfers
          = (aes_write_regv rs orc).transfers ∧
      (aes_write_regv (ws ++ rs) orc).callbacks
          = (aes_write_regv rs orc).callbacks) ∧
    (∀ (rs ws : List RegWrite) (orc : List TrfOutcome),
      (∀ x ∈ ws, x.reg = 0) →
      (aes_write_regv (rs ++ ws) orc).transfers
          = (aes_write_regv rs orc).transfers ∧
      (aes_write_regv (rs ++ ws) orc).callbacks
          = (aes_write_regv rs orc).callbacks) := by
  refine ⟨?_, ?_, ?_⟩
  · unfold aes_write_regv
    have hdw : (regs.drop 0).dropWhile isBarrier = [] := by
      rw [List.drop_zero, List.dropWhile_eq_nil_iff]
      intro x hx
      simp only [isBarrier, beq_iff_eq]
      exact hb x hx
    have hnil : regs.drop (skipZeros regs 0) = [] := by
      rw [skipZeros_drop, hdw]
    have hdone : regs.length ≤ skipZeros regs 0 := List.drop_eq_nil_iff.mp hnil
    rw [runWrite_done regs oracle 0 hdone]
    exact ⟨rfl, rfl⟩
  · intro ws rs orc hws
    unfold aes_write_regv
    have hcongr : runWrite (ws ++ rs) orc 0
        = runWrite (ws ++ rs) orc (ws.length + 0) :=
      runWrite_congr (ws ++ rs) orc 0 (ws.length + 0) (skipZeros_prepend ws rs hws)
    rw [hcongr]
    exact runWrite_shift ws rs orc 0
  · intro rs ws orc hws
    unfold aes_write_regv
    exact runWrite_suffix rs ws hws orc 0 (Nat.zero_le _)

/-- Witness for C9 on two barrier entries, with a barrier prepended and
    appended to a one-write sequence. -/
theorem C9_all_barrier_sequence_witness :
    ((aes_write_regv [⟨0, 5⟩, ⟨0, 6⟩] []).transfers = [] ∧
      (aes_write_regv [⟨0, 5⟩, ⟨0, 6⟩] []).callbacks = [0]) ∧
    ((aes_write_regv ([⟨0, 9⟩] ++ [⟨1, 2⟩]) [success]).transfers
        = (aes_write_regv [⟨1, 2⟩] [success]).transfers ∧
      (aes_write_regv ([⟨0, 9⟩] ++ [⟨1, 2⟩]) [success]).callbacks
        = (aes_write_regv [⟨1, 2⟩] [success]).callbacks) ∧
    ((aes_write_regv ([⟨1, 2⟩] ++ [⟨0, 9⟩]) [success]).transfers
        = (aes_write_regv [⟨1, 2⟩] [success]).transfers ∧
      (aes_write_regv ([⟨1, 2⟩] ++ [⟨0, 9⟩]) [success]).callbacks
        = (aes_write_regv [⟨1, 2⟩] [success]).callbacks) :=
  ⟨(C9_all_barrier_sequence [⟨0, 5⟩, ⟨0, 6⟩] [] (by simp) (by decide)).1,
   (C9_all_barrier_sequence [⟨0, 5⟩, ⟨0, 6⟩] [] (by simp) (by decide)).2.1
      [⟨0, 9⟩] [⟨1, 2⟩] [success] (by decide),
   (C9_all_barrier_sequence [⟨0, 5⟩, ⟨0, 6⟩] [] (by simp) (by decide)).2.2
      [⟨1, 2⟩] [⟨0, 9⟩] [success] (by decide)⟩

end Aeslib
